import Mathlib

/-!
# Verification of the backtestnow2 core engine

Shallow embedding of the core backtesting engine:

* `src/src/lib/backtest-engine.ts` — indicator library (`calcSMA`, `calcEMA`,
  `calcWMA`, `calcRSI`), trade construction, monthly P&L, metrics and the
  preset dual-MA strategy simulator;
* the PineScript runtime document (`runPineScriptBacktest` and the arithmetic
  step of `PineRuntime.evalExpr`);
* the deadline-aware optimizer document (`optimize`, `iterateCombinations`).

Modelling conventions, used throughout:

* JavaScript numbers are modelled as `JsNum := Option ℚ`: `some q` is an
  ordinary (exact) number, `none` is `NaN` (and also `undefined` where an
  out-of-bounds array read flows into arithmetic, since both behave as `NaN`
  there).  Binary-float rounding is out of scope; arithmetic is exact.
  `x / 0` is modelled as `none` (JavaScript produces `NaN` for `0/0` and
  `±Infinity` otherwise; the engine guards every division that could hit the
  infinite case, so the conflation is not observable in the claims below).
* JavaScript array writes `a[i] = v` with `i ≥ a.length` extend the array;
  this is modelled faithfully by `setExtend`.
* `Math.sqrt` and `Math.pow` (used only inside `calcMetrics` for the Sharpe
  ratio and the annualised return) are irrational-valued; they are passed in
  as an abstract `FloatOps` parameter, and no claim depends on their values.
* Integer loop counters and array indices are `ℕ`; the indicator periods are
  taken as natural numbers (every caller in the repository rounds or clamps
  them to integers ≥ 0 before use).
-/

namespace BTN

/-- A JavaScript number: `none` is `NaN`. -/
abbrev JsNum := Option ℚ

/-- Addition, propagating `NaN`. -/
def jadd : JsNum → JsNum → JsNum
  | some a, some b => some (a + b)
  | _, _ => none

/-- Subtraction, propagating `NaN`. -/
def jsub : JsNum → JsNum → JsNum
  | some a, some b => some (a - b)
  | _, _ => none

/-- Multiplication, propagating `NaN`. -/
def jmul : JsNum → JsNum → JsNum
  | some a, some b => some (a * b)
  | _, _ => none

/-- Division, propagating `NaN`; division by zero gives `none`
(JavaScript gives `NaN` for `0/0` and `±Infinity` otherwise — the engine
never lets the infinite case reach an observable result). -/
def jdiv : JsNum → JsNum → JsNum
  | some a, some b => if b = 0 then none else some (a / b)
  | _, _ => none

/-- Negation, propagating `NaN`. -/
def jneg : JsNum → JsNum
  | some a => some (-a)
  | none => none

/-- Absolute value (`Math.abs`), propagating `NaN`. -/
def jabs : JsNum → JsNum
  | some a => some |a|
  | none => none

/-- JavaScript `<` on numbers: any comparison with `NaN` is `false`. -/
def jlt : JsNum → JsNum → Bool
  | some a, some b => decide (a < b)
  | _, _ => false

/-- JavaScript `>` on numbers: any comparison with `NaN` is `false`. -/
def jgt : JsNum → JsNum → Bool
  | some a, some b => decide (b < a)
  | _, _ => false

/-- JavaScript `<=` on numbers: any comparison with `NaN` is `false`. -/
def jle : JsNum → JsNum → Bool
  | some a, some b => decide (a ≤ b)
  | _, _ => false

/-- JavaScript `>=` on numbers: any comparison with `NaN` is `false`. -/
def jge : JsNum → JsNum → Bool
  | some a, some b => decide (b ≤ a)
  | _, _ => false

/-- JavaScript `===` on numbers: `NaN === x` is `false`. -/
def jeqb : JsNum → JsNum → Bool
  | some a, some b => decide (a = b)
  | _, _ => false

/-- JavaScript array write `a[i] = v`: in-bounds writes update, writes past
the end extend the array (holes behave as `NaN` once read into arithmetic). -/
def setExtend (l : List JsNum) (i : ℕ) (v : JsNum) : List JsNum :=
  if i < l.length then l.set i v
  else l ++ List.replicate (i - l.length) none ++ [v]

theorem length_setExtend (l : List JsNum) (i : ℕ) (v : JsNum) :
    (setExtend l i v).length = max l.length (i + 1) := by
  unfold setExtend
  by_cases h : i < l.length
  · rw [if_pos h]; simp; omega
  · rw [if_neg h]; simp; omega

/-- JavaScript array read `a[i]`, as it flows into arithmetic:
out of bounds gives `undefined`, which behaves as `NaN`. -/
def jget (l : List JsNum) (i : ℕ) : JsNum := l.getD i none

-- ─── Indicator library (backtest-engine.ts lines 72-124) ─────────────────────

/-- One iteration of the `calcSMA` loop: rolling sum update and conditional
write of `sum / period` (source lines 75-79). -/
def smaStep (p : ℕ) (x : List JsNum) (acc : JsNum × List JsNum) (i : ℕ) :
    JsNum × List JsNum :=
  let sum := jadd acc.1 (jget x i)
  let sum := if p ≤ i then jsub sum (jget x (i - p)) else sum
  let res := if p ≤ i + 1 then acc.2.set i (jdiv sum (some (p : ℚ))) else acc.2
  (sum, res)

/-- The function `calcSMA` (source lines 72-81): result prefilled with `NaN`, rolling sum
divided by the period from index `period-1` on. -/
def calcSMA (prices : List JsNum) (period : ℕ) : List JsNum :=
  ((List.range prices.length).foldl (smaStep period prices)
    (some 0, List.replicate prices.length none)).2

/-- The function `calcEMA` (source lines 83-93): seeded with `prices[0]` at index 0, then
`ema[i] = x[i]*k + ema[i-1]*(1-k)` with `k = 2/(period+1)`.  The seed write
`result[0] = ema` is unconditional, so an empty input yields a length-1
array (JavaScript array extension). -/
def calcEMA (prices : List JsNum) (period : ℕ) : List JsNum :=
  let n := prices.length
  let k : ℚ := 2 / ((period : ℚ) + 1)
  let ema0 := jget prices 0
  let init : JsNum × List JsNum := (ema0, setExtend (List.replicate n none) 0 ema0)
  ((List.range' 1 (n - 1)).foldl
    (fun acc i =>
      let ema := jadd (jmul (jget prices i) (some k)) (jmul acc.1 (some (1 - k)))
      (ema, acc.2.set i ema)) init).2

/-- The function `calcWMA` (source lines 95-104): linearly weighted rolling window,
weights `period..1`, written from index `period-1` on. -/
def calcWMA (prices : List JsNum) (period : ℕ) : List JsNum :=
  let n := prices.length
  let denom : ℚ := (period : ℚ) * ((period : ℚ) + 1) / 2
  (List.range' (period - 1) (n - (period - 1))).foldl
    (fun res i =>
      let sum := (List.range period).foldl
        (fun s j => jadd s (jmul (jget prices (i - j)) (some ((period : ℚ) - (j : ℚ))))) (some 0)
      res.set i (jdiv sum (some denom)))
    (List.replicate n none)

/-- The RSI value written at each index (source lines 114 and 121):
`avgLoss === 0 ? 100 : 100 - 100 / (1 + avgGain / avgLoss)`. -/
def rsiValue (avgGain avgLoss : JsNum) : JsNum :=
  if jeqb avgLoss (some 0) then some 100
  else jsub (some 100) (jdiv (some 100) (jadd (some 1) (jdiv avgGain avgLoss)))

/-- The seeding loop of `calcRSI` (source lines 108-113): accumulate gains and
losses over the first `period` differences, then divide both by the period. -/
def rsiSeed (x : List JsNum) (p : ℕ) : JsNum × JsNum :=
  let gl := (List.range' 1 p).foldl
    (fun (gl : JsNum × JsNum) i =>
      let diff := jsub (jget x i) (jget x (i - 1))
      if jgt diff (some 0) then (jadd gl.1 diff, gl.2) else (gl.1, jsub gl.2 diff))
    (some 0, some 0)
  (jdiv gl.1 (some (p : ℚ)), jdiv gl.2 (some (p : ℚ)))

/-- One iteration of the Wilder recurrence of `calcRSI`
(source lines 115-122). -/
def rsiStep (x : List JsNum) (p : ℕ) (acc : JsNum × JsNum × List JsNum) (i : ℕ) :
    JsNum × JsNum × List JsNum :=
  let diff := jsub (jget x i) (jget x (i - 1))
  let gain := if jgt diff (some 0) then diff else some 0
  let loss := if jlt diff (some 0) then jneg diff else some 0
  let avgGain := jdiv (jadd (jmul acc.1 (some ((p : ℚ) - 1))) gain) (some (p : ℚ))
  let avgLoss := jdiv (jadd (jmul acc.2.1 (some ((p : ℚ) - 1))) loss) (some (p : ℚ))
  (avgGain, avgLoss, acc.2.2.set i (rsiValue avgGain avgLoss))

/-- The function `calcRSI` (source lines 106-124): Wilder average-gain/average-loss
recurrence, first written at index `period` (a write past the end of a short
input extends the array, as in JavaScript). -/
def calcRSI (prices : List JsNum) (period : ℕ) : List JsNum :=
  let n := prices.length
  let seed := rsiSeed prices period
  let res0 := setExtend (List.replicate n none) period (rsiValue seed.1 seed.2)
  ((List.range' (period + 1) (n - (period + 1))).foldl
    (rsiStep prices period) (seed.1, seed.2, res0)).2.2

/-- The function `getMA` (source lines 126-132): dispatch on the moving-average type,
defaulting to SMA. -/
def getMA (prices : List JsNum) (period : ℕ) (ty : String) : List JsNum :=
  if ty = "EMA" then calcEMA prices period
  else if ty = "WMA" then calcWMA prices period
  else calcSMA prices period

-- ─── Data model ──────────────────────────────────────────────────────────────

/-- One OHLCV bar (`opn` stands for the source field `open`, a Lean keyword). -/
structure OHLCV where
  timestamp : ℤ
  opn       : ℚ
  high      : ℚ
  low       : ℚ
  close     : ℚ
  volume    : ℚ
  deriving DecidableEq, Repr

/-- The asset type (`AssetConfig.type`): `'crypto' | 'futures'`. -/
inductive AssetType
  | crypto
  | futures
  deriving DecidableEq, Repr

structure AssetConfig where
  type       : AssetType
  pointValue : ℚ
  deriving DecidableEq, Repr

inductive Dir
  | long
  | short
  deriving DecidableEq, Repr

/-- A realized trade. -/
structure Trade where
  entryIndex     : ℕ
  exitIndex      : ℕ
  entryTimestamp : ℤ
  exitTimestamp  : ℤ
  entryPrice     : ℚ
  exitPrice      : ℚ
  direction      : Dir
  pnlPct         : JsNum
  pointsMove     : ℚ
  pnlDollars     : ℚ
  deriving DecidableEq, Repr

/-- An open position (simulator-internal). -/
structure OpenPos where
  entryIndex : ℕ
  entryPrice : ℚ
  direction  : Dir
  deriving DecidableEq, Repr

/-- Timestamp of bar `i` (in-bounds whenever the engine reads it). -/
def tsAt (ohlcv : List OHLCV) (i : ℕ) : ℤ :=
  (ohlcv.getD i ⟨0, 0, 0, 0, 0, 0⟩).timestamp

/-- Close price of bar `i`. -/
def closeAt (ohlcv : List OHLCV) (i : ℕ) : ℚ :=
  (ohlcv.getD i ⟨0, 0, 0, 0, 0, 0⟩).close

/-- The functions `closeTrade` / `makeClosedTrade` (source lines 143-170 and 1607-1634):
build a `Trade` from an open position and exit information. -/
def closeTrade (pos : OpenPos) (exitIndex : ℕ) (exitPrice : ℚ) (ohlcv : List OHLCV)
    (aType : AssetType) (pointValue : ℚ) : Trade :=
  let pointsMove := exitPrice - pos.entryPrice
  let pnlPct := match pos.direction with
    | .long  => jmul (jdiv (some (exitPrice - pos.entryPrice)) (some pos.entryPrice)) (some 100)
    | .short => jmul (jdiv (some (pos.entryPrice - exitPrice)) (some pos.entryPrice)) (some 100)
  let pnlDollars := if aType = .futures
    then (match pos.direction with | .long => pointsMove | .short => -pointsMove) * pointValue
    else 0
  { entryIndex := pos.entryIndex
    exitIndex
    entryTimestamp := tsAt ohlcv pos.entryIndex
    exitTimestamp := tsAt ohlcv exitIndex
    entryPrice := pos.entryPrice
    exitPrice
    direction := pos.direction
    pnlPct
    pointsMove
    pnlDollars }

-- ─── Monthly P&L (source lines 174-192) ──────────────────────────────────────

structure MonthlyPnL where
  year       : ℤ
  month      : ℕ
  key        : String
  trades     : ℕ
  winTrades  : ℕ
  pnlPct     : JsNum
  pnlDollars : ℚ
  pointsMove : ℚ
  deriving DecidableEq, Repr

/-- Proleptic-Gregorian `(year, month)` of a day count from the Unix epoch;
models `new Date(ms).getUTCFullYear()` / `.getUTCMonth() + 1`.
Divisions are C-style truncating (`Int.tdiv`), operands are arranged to be
non-negative exactly as in the standard civil-from-days algorithm. -/
def civilYM (z0 : ℤ) : ℤ × ℕ :=
  let z := z0 + 719468
  let era : ℤ := Int.tdiv (if 0 ≤ z then z else z - 146096) 146097
  let doe : ℤ := z - era * 146097
  let yoe : ℤ := Int.tdiv (doe - Int.tdiv doe 1460 + Int.tdiv doe 36524 - Int.tdiv doe 146096) 365
  let y : ℤ := yoe + era * 400
  let doy : ℤ := doe - (365 * yoe + Int.tdiv yoe 4 - Int.tdiv yoe 100)
  let mp : ℤ := Int.tdiv (5 * doy + 2) 153
  let m : ℤ := mp + (if mp < 10 then 3 else -9)
  (y + (if m ≤ 2 then 1 else 0), m.toNat)

/-- UTC `(year, month)` of a millisecond epoch timestamp. -/
def epochYM (ms : ℤ) : ℤ × ℕ := civilYM (ms / 86400000)

/-- The source month key `` `${yr}-${String(mo).padStart(2, '0')}` ``. -/
def monthKeyStr (y : ℤ) (m : ℕ) : String :=
  toString y ++ "-" ++ (if m < 10 then "0" ++ toString m else toString m)

/-- Month key of a trade (by its exit timestamp, as in the source). -/
def tradeMonthKey (t : Trade) : String :=
  let ym := epochYM t.exitTimestamp
  monthKeyStr ym.1 ym.2

/-- Accumulate one trade into an existing bucket (`m.trades++`, win count,
and the three P&L sums; source lines 185-189). -/
def bumpMonth (m : MonthlyPnL) (t : Trade) : MonthlyPnL :=
  { m with trades := m.trades + 1
           winTrades := m.winTrades + (if jgt t.pnlPct (some 0) then 1 else 0)
           pnlPct := jadd m.pnlPct t.pnlPct
           pnlDollars := m.pnlDollars + t.pnlDollars
           pointsMove := m.pointsMove + t.pointsMove }

/-- The fresh bucket created on a trade's first month (source lines 181-183,
immediately accumulated at lines 185-189). -/
def newMonthBucket (t : Trade) : MonthlyPnL :=
  let ym := epochYM t.exitTimestamp
  bumpMonth
    { year := ym.1, month := ym.2, key := monthKeyStr ym.1 ym.2
      trades := 0, winTrades := 0, pnlPct := some 0, pnlDollars := 0, pointsMove := 0 } t

/-- Fold one trade into the bucket list (the body of the `for` loop at source
lines 176-190; `Map` iteration order is insertion order, modelled by an
association list). -/
def monthlyUpsert (t : Trade) : List MonthlyPnL → List MonthlyPnL
  | [] => [newMonthBucket t]
  | m :: rest =>
    if m.key = tradeMonthKey t then bumpMonth m t :: rest
    else m :: monthlyUpsert t rest

/-- The bucket list before sorting (the `Map` contents in insertion order). -/
def bucketsOf (trades : List Trade) : List MonthlyPnL :=
  trades.foldl (fun acc t => monthlyUpsert t acc) []

/-- The function `calcMonthlyPnL` (source lines 174-192); the final sort by key models
`localeCompare` with the codepoint order on strings. -/
def calcMonthlyPnL (trades : List Trade) : List MonthlyPnL :=
  (bucketsOf trades).mergeSort (fun a b => decide (a.key ≤ b.key))

-- ─── Metrics (source lines 196-253) ──────────────────────────────────────────

/-- Abstract stand-ins for `Math.sqrt` and `Math.pow` (irrational-valued;
no claim depends on their values). -/
structure FloatOps where
  sqrt : JsNum → JsNum
  pow  : JsNum → JsNum → JsNum

/-- Rounding `parseFloat(x.toFixed(d))` on an exact rational: round to `d` decimal
places, ties toward `+∞` (ECMA-262 `toFixed` picks the larger candidate). -/
def qfix (d : ℕ) (q : ℚ) : ℚ := ((⌊q * 10 ^ d + 1 / 2⌋ : ℤ) : ℚ) / 10 ^ d

/-- Rounding `parseFloat(x.toFixed(d))`, propagating `NaN`. -/
def jfix (d : ℕ) : JsNum → JsNum
  | some q => some (qfix d q)
  | none => none

structure BacktestMetrics where
  totalReturnPct      : JsNum
  annualizedReturnPct : JsNum
  maxDrawdownPct      : JsNum
  sharpeRatio         : JsNum
  winRate             : JsNum
  totalTrades         : ℕ
  profitFactor        : JsNum
  avgTradePct         : JsNum
  totalDollarPnL      : ℚ
  totalPointsMove     : ℚ
  deriving DecidableEq, Repr

/-- The all-zero metrics record returned for an empty trade list
(source lines 197-203). -/
def zeroMetrics : BacktestMetrics :=
  { totalReturnPct := some 0, annualizedReturnPct := some 0, maxDrawdownPct := some 0
    sharpeRatio := some 0, winRate := some 0, totalTrades := 0, profitFactor := some 0
    avgTradePct := some 0, totalDollarPnL := 0, totalPointsMove := 0 }

/-- The function `calcMetrics` (source lines 196-253).  Bar-timestamp reads on an empty bar
list are modelled with a default of `0` (in the source they are unreachable:
a non-empty trade list implies a non-empty bar list). -/
def calcMetrics (ops : FloatOps) (trades : List Trade) (equityCurve : List JsNum)
    (ohlcv : List OHLCV) : BacktestMetrics :=
  if trades = [] then zeroMetrics
  else
    let lastEq := jget equityCurve (equityCurve.length - 1)
    let totalReturnPct := jsub lastEq (some 100)
    let daysHeld : ℚ := ((tsAt ohlcv (ohlcv.length - 1) - tsAt ohlcv 0 : ℤ) : ℚ) / 86400000
    let years : ℚ := max (daysHeld / 365) (1 / 100)
    let annualizedReturnPct :=
      jmul (jsub (ops.pow (jdiv lastEq (some 100)) (some (1 / years))) (some 1)) (some 100)
    let dd := equityCurve.foldl
      (fun (acc : JsNum × JsNum) eq =>
        let peak := if jgt eq acc.1 then eq else acc.1
        let d := jmul (jdiv (jsub peak eq) peak) (some 100)
        (peak, if jgt d acc.2 then d else acc.2))
      (jget equityCurve 0, some 0)
    let maxDD := dd.2
    let wgl := trades.foldl
      (fun (acc : ℕ × JsNum × JsNum) t =>
        if jgt t.pnlPct (some 0) then (acc.1 + 1, jadd acc.2.1 t.pnlPct, acc.2.2)
        else (acc.1, acc.2.1, jadd acc.2.2 (jabs t.pnlPct)))
      (0, some 0, some 0)
    let wins := wgl.1
    let grossProfit := wgl.2.1
    let grossLoss := wgl.2.2
    let winRate := jmul (jdiv (some (wins : ℚ)) (some (trades.length : ℚ))) (some 100)
    let profitFactor :=
      if jeqb grossLoss (some 0) then (if jgt grossProfit (some 0) then some 999 else some 0)
      else jdiv grossProfit grossLoss
    let dailyReturns := (List.range' 1 (equityCurve.length - 1)).map
      (fun i => jdiv (jsub (jget equityCurve i) (jget equityCurve (i - 1)))
        (jget equityCurve (i - 1)))
    let meanR := jdiv (dailyReturns.foldl jadd (some 0)) (some (dailyReturns.length : ℚ))
    let variance := jdiv
      (dailyReturns.foldl (fun s r => jadd s (jmul (jsub r meanR) (jsub r meanR))) (some 0))
      (some (dailyReturns.length : ℚ))
    let sharpeRatio :=
      if jeqb (ops.sqrt variance) (some 0) then some 0
      else jmul (jdiv meanR (ops.sqrt variance)) (ops.sqrt (some 252))
    let totalDollarPnL := trades.foldl (fun s t => s + t.pnlDollars) 0
    let totalPointsMove := trades.foldl (fun s t => s + t.pointsMove) 0
    { totalReturnPct := jfix 2 totalReturnPct
      annualizedReturnPct := jfix 2 annualizedReturnPct
      maxDrawdownPct := jfix 2 maxDD
      sharpeRatio := jfix 3 sharpeRatio
      winRate := jfix 2 winRate
      totalTrades := trades.length
      profitFactor := jfix 3 profitFactor
      avgTradePct := jfix 3 (jdiv (trades.foldl (fun s t => jadd s t.pnlPct) (some 0))
        (some (trades.length : ℚ)))
      totalDollarPnL := qfix 2 totalDollarPnL
      totalPointsMove := qfix 4 totalPointsMove }

-- ─── Backtest results ────────────────────────────────────────────────────────

/-- A strategy parameter value (`number | string | boolean`). -/
inductive PValue
  | num  (q : ℚ)
  | str  (s : String)
  | bool (b : Bool)
  deriving DecidableEq, Repr

/-- A parameter record; lookup takes the first binding of a name. -/
abbrev Params := List (String × PValue)

structure BacktestResult extends BacktestMetrics where
  params      : Params
  trades      : List Trade
  equityCurve : List JsNum
  monthlyPnL  : List MonthlyPnL
  deriving DecidableEq, Repr

-- ─── Shared simulator state ──────────────────────────────────────────────────

/-- The mutable state of a bar-by-bar simulation: `equity`, the equity curve,
the (at most one) open position, and the realized trade list. -/
structure SimState where
  equity      : JsNum
  equityCurve : List JsNum
  position    : Option OpenPos
  trades      : List Trade
  deriving DecidableEq, Repr

/-- The initial simulator state: `equity = 100`, `equityCurve = [100]`,
no position, no trades. -/
def initSimState : SimState := ⟨some 100, [some 100], none, []⟩

/-- The update `equity * (1 + t.pnlPct / 100)` — the equity update on every realized
trade. -/
def equityAfter (equity : JsNum) (t : Trade) : JsNum :=
  jmul equity (jadd (some 1) (jdiv t.pnlPct (some 100)))

/-- The value `100` times the running product of `(1 + pnlPct/100)` over a trade list
(the equity implied by multiplicative compounding from 100). -/
def equityProd (trades : List Trade) : JsNum :=
  trades.foldl equityAfter (some 100)

/-- Close the open position (if any) into the running `(equity, trades)`
state — the `if (position) { … }` block that precedes each entry. -/
def closeOpen (ohlcv : List OHLCV) (aType : AssetType) (pv : ℚ) (i : ℕ) (price : ℚ)
    (pos : Option OpenPos) (equity : JsNum) (trades : List Trade) : JsNum × List Trade :=
  match pos with
  | some p =>
    let t := closeTrade p i price ohlcv aType pv
    (equityAfter equity t, trades ++ [t])
  | none => (equity, trades)

/-- The direction of the open position, if any (`position?.direction`). -/
def posDir (pos : Option OpenPos) : Option Dir := pos.map (·.direction)

-- ─── Dual MA crossover simulator (source lines 257-317) ──────────────────────

/-- The body of the `for` loop of `backtestDualMA` (source lines 276-302) at
bar `i`, given the two precomputed moving-average series. -/
def dualStep (ohlcv : List OHLCV) (fastMA slowMA : List JsNum) (aType : AssetType)
    (pv : ℚ) (s : SimState) (i : ℕ) : SimState :=
  let fi := jget fastMA i
  let si := jget slowMA i
  let fp := if i = 0 then none else jget fastMA (i - 1)
  let sp := if i = 0 then none else jget slowMA (i - 1)
  if fi = none ∨ si = none ∨ fp = none ∨ sp = none then
    { s with equityCurve := s.equityCurve ++ [s.equity] }
  else
    let crossOver := jlt fp sp && jge fi si
    let crossUnder := jgt fp sp && jle fi si
    let price := closeAt ohlcv i
    let s1 :=
      if crossOver && decide (posDir s.position ≠ some Dir.long) then
        let et := closeOpen ohlcv aType pv i price s.position s.equity s.trades
        { s with equity := et.1, trades := et.2, position := some ⟨i, price, Dir.long⟩ }
      else if crossUnder && decide (posDir s.position ≠ some Dir.short) then
        let et := closeOpen ohlcv aType pv i price s.position s.equity s.trades
        { s with equity := et.1, trades := et.2, position := some ⟨i, price, Dir.short⟩ }
      else s
    { s1 with equityCurve := s1.equityCurve ++ [s1.equity] }

/-- The full bar loop of `backtestDualMA`, from `start = max(fast, slow)` to
the last bar. -/
def dualMASim (ohlcv : List OHLCV) (fastMA slowMA : List JsNum) (start : ℕ)
    (aType : AssetType) (pv : ℚ) : SimState :=
  (List.range' start (ohlcv.length - start)).foldl
    (dualStep ohlcv fastMA slowMA aType pv) initSimState

/-- The end-of-data forced close (source lines 305-308): if a position is
still open after the loop, realize it at the last bar's close. -/
def forcedClose (ohlcv : List OHLCV) (aType : AssetType) (pv : ℚ)
    (s : SimState) : List Trade :=
  match s.position with
  | some p => [closeTrade p (ohlcv.length - 1) (closeAt ohlcv (ohlcv.length - 1)) ohlcv aType pv]
  | none => []

/-- The function `backtestDualMA` (source lines 257-317).  Periods are naturals (the
source applies `Math.round` to them before indicator calls). -/
def backtestDualMA (ops : FloatOps) (ohlcv : List OHLCV) (fastPeriod slowPeriod : ℕ)
    (maType : String) (assetConfig : AssetConfig) : BacktestResult :=
  let closes := ohlcv.map (fun b => some b.close)
  let fastMA := getMA closes fastPeriod maType
  let slowMA := getMA closes slowPeriod maType
  let s := dualMASim ohlcv fastMA slowMA (max fastPeriod slowPeriod)
    assetConfig.type assetConfig.pointValue
  let trades := s.trades ++ forcedClose ohlcv assetConfig.type assetConfig.pointValue s
  { toBacktestMetrics := calcMetrics ops trades s.equityCurve ohlcv
    params := [("fastLength", .num (fastPeriod : ℚ)), ("slowLength", .num (slowPeriod : ℚ)),
               ("maType", .str maType)]
    trades
    equityCurve := s.equityCurve
    monthlyPnL := calcMonthlyPnL trades }

-- ─── PineScript runtime: arithmetic step and signal simulator ────────────────

inductive ArithOp
  | add
  | sub
  | mul
  | div
  deriving DecidableEq, Repr

/-- The arithmetic case of `PineRuntime.evalExpr` (source lines 1241-1257):
the two operands resolved to numeric series, combined elementwise; division
checks `b[i] === 0` first and yields `NaN` in that case. -/
def evalArith (op : ArithOp) (a b : List JsNum) : List JsNum :=
  a.mapIdx (fun i v =>
    let bi := jget b i
    match op with
    | .add => jadd v bi
    | .sub => jsub v bi
    | .mul => jmul v bi
    | .div => if jeqb bi (some 0) then none else jdiv v bi)

/-- Signal types of the PineScript runtime (source lines 1078-1082). -/
inductive SigType
  | long
  | short
  | closeLong
  | closeShort
  | closeAll
  deriving DecidableEq, Repr

/-- A recorded strategy signal: type, name of the guarding boolean series,
and an optional entry label. -/
structure StrategySignal where
  type     : SigType
  condName : String
  entryId  : Option String
  deriving DecidableEq, Repr

/-- One signal applied at bar `i` (the `switch` at source lines 1674-1714).
`cond` is the valuation of the runtime's boolean condition series
(`runtime.getCondAt`). -/
def pineSignalStep (ohlcv : List OHLCV) (aType : AssetType) (pv : ℚ)
    (cond : String → ℕ → Bool) (i : ℕ)
    (st : JsNum × Option OpenPos × List Trade) (sig : StrategySignal) :
    JsNum × Option OpenPos × List Trade :=
  if !cond sig.condName i then st
  else
    let price := closeAt ohlcv i
    let equity := st.1
    let pos := st.2.1
    let trades := st.2.2
    match sig.type with
    | .long =>
      if posDir pos ≠ some Dir.long then
        let et := closeOpen ohlcv aType pv i price pos equity trades
        (et.1, some ⟨i, price, Dir.long⟩, et.2)
      else st
    | .short =>
      if posDir pos ≠ some Dir.short then
        let et := closeOpen ohlcv aType pv i price pos equity trades
        (et.1, some ⟨i, price, Dir.short⟩, et.2)
      else st
    | .closeLong =>
      if posDir pos = some Dir.long then
        let et := closeOpen ohlcv aType pv i price pos equity trades
        (et.1, none, et.2)
      else st
    | .closeShort =>
      if posDir pos = some Dir.short then
        let et := closeOpen ohlcv aType pv i price pos equity trades
        (et.1, none, et.2)
      else st
    | .closeAll =>
      match pos with
      | some _ =>
        let et := closeOpen ohlcv aType pv i price pos equity trades
        (et.1, none, et.2)
      | none => st

/-- One bar of `runPineScriptBacktest` (source lines 1666-1718): apply every
signal in declared order, then push the equity curve entry. -/
def pineBarStep (signals : List StrategySignal) (cond : String → ℕ → Bool)
    (ohlcv : List OHLCV) (aType : AssetType) (pv : ℚ) (s : SimState) (i : ℕ) : SimState :=
  let et := signals.foldl (pineSignalStep ohlcv aType pv cond i)
    (s.equity, s.position, s.trades)
  { equity := et.1, equityCurve := s.equityCurve ++ [et.1]
    position := et.2.1, trades := et.2.2 }

/-- The bar loop of `runPineScriptBacktest` (bars `1 … n-1`). -/
def pineSim (signals : List StrategySignal) (cond : String → ℕ → Bool)
    (ohlcv : List OHLCV) (aType : AssetType) (pv : ℚ) : SimState :=
  (List.range' 1 (ohlcv.length - 1)).foldl
    (pineBarStep signals cond ohlcv aType pv) initSimState

/-- The function `runPineScriptBacktest` (source lines 1643-1734), abstracted over the
signal list and condition valuation that `PineRuntime.execute` extracts from
the script text (the text-parsing layer itself is not modelled; every theorem
below holds for every signal list and valuation). -/
def runPineScriptBacktest (ops : FloatOps) (signals : List StrategySignal)
    (cond : String → ℕ → Bool) (params : Params) (ohlcv : List OHLCV)
    (assetConfig : AssetConfig) : BacktestResult :=
  let s := pineSim signals cond ohlcv assetConfig.type assetConfig.pointValue
  let trades := s.trades ++ forcedClose ohlcv assetConfig.type assetConfig.pointValue s
  { toBacktestMetrics := calcMetrics ops trades s.equityCurve ohlcv
    params
    trades
    equityCurve := s.equityCurve
    monthlyPnL := calcMonthlyPnL trades }

-- ─── Optimizer (the deadline-aware `optimize` document) ──────────────────────

inductive PType
  | int
  | float
  deriving DecidableEq, Repr

structure ParamRange where
  varName : String
  title   : String
  type    : PType
  min     : ℚ
  max     : ℚ
  step    : ℚ
  enabled : Bool
  deriving DecidableEq, Repr

inductive SortKey
  | totalReturnPct
  | sharpeRatio
  | profitFactor
  | winRate
  deriving DecidableEq, Repr

structure OptimizationConfig where
  strategyType    : String
  pineCode        : Option String
  paramRanges     : List ParamRange
  fixedParams     : Params
  maxCombinations : ℕ
  sortBy          : SortKey
  topN            : ℕ
  deadlineMs      : Option ℤ
  deriving Repr

structure OptimizationResult where
  rank   : ℕ
  result : BacktestResult
  score  : JsNum
  deriving DecidableEq, Repr

structure OptimizationSummary where
  results     : List OptimizationResult
  testedCount : ℕ
  timedOut    : Bool
  deriving DecidableEq, Repr

/-- The sort score `result[config.sortBy]`. -/
def scoreOf (k : SortKey) (r : BacktestResult) : JsNum :=
  match k with
  | .totalReturnPct => r.totalReturnPct
  | .sharpeRatio => r.sharpeRatio
  | .profitFactor => r.profitFactor
  | .winRate => r.winRate

/-- Rounding `parseFloat(v.toFixed(8))` applied to each grid value. -/
def fix8 (v : ℚ) : ℚ := qfix 8 v

/-- The discrete value list of one enabled range (source lines 316-323):
`for (v = min; v <= max + 1e-10; v += step)` with `step = r.step > 0 ?
r.step : 1`, each value pushed as `parseFloat(v.toFixed(8))`.  With exact
arithmetic the loop visits exactly `min + k*step` for
`k = 0 … ⌊(max + ε - min)/step⌋`. -/
def axisValues (r : ParamRange) : List ℚ :=
  let step := if 0 < r.step then r.step else 1
  let eps : ℚ := 1 / 10000000000
  if r.max + eps < r.min then []
  else (List.range ((⌊(r.max + eps - r.min) / step⌋).toNat + 1)).map
    (fun k => fix8 (r.min + (k : ℚ) * step))

structure Axis where
  name   : String
  values : List ℚ
  deriving DecidableEq, Repr

/-- The axes of the enabled parameter ranges (source lines 316-323). -/
def mkAxes (ranges : List ParamRange) : List Axis :=
  (ranges.filter (·.enabled)).map (fun r => ⟨r.varName, axisValues r⟩)

/-- One concrete assignment of a value to every axis, in axis order.  The
source serializes it with `JSON.stringify`, which is injective on these
records given the fixed axis order, so the combination itself is its key. -/
abbrev Combo := List (String × ℚ)

/-- The count `totalCombos axes` — the full Cartesian-product size
(`axes.reduce((acc, a) => acc * a.values.length, 1)`). -/
def totalCombos (axes : List Axis) : ℕ :=
  (axes.map (·.values.length)).prod

/-- Exhaustive enumeration in lexicographic axis order, first axis
slowest-varying (the recursive generator at source lines 274-281). -/
def gridCombos : List Axis → List Combo
  | [] => [[]]
  | ax :: rest => ax.values.flatMap (fun v => (gridCombos rest).map (fun c => (ax.name, v) :: c))

/-- One random draw: an index per axis.  `Math.floor(Math.random() * len)` is
always in range, modelled by reducing the drawn index modulo the axis size. -/
def mkCombo (axes : List Axis) (draw : List ℕ) : Combo :=
  axes.mapIdx (fun j ax => (ax.name, ax.values.getD (draw.getD j 0 % ax.values.length) 0))

/-- Rejection-sampled random draws (source lines 283-292): draw a combination,
skip it if its key was already seen, stop once `maxCombinations` have been
accepted (or the supplied draw stream is exhausted). -/
def sampleCombos (axes : List Axis) (maxC : ℕ) :
    List (List ℕ) → List Combo → List Combo
  | [], _ => []
  | d :: ds, seen =>
    if maxC ≤ seen.length then []
    else
      let c := mkCombo axes d
      if c ∈ seen then sampleCombos axes maxC ds seen
      else c :: sampleCombos axes maxC ds (c :: seen)

/-- The generator `iterateCombinations` (source lines 266-294): full grid when the product
fits under the cap, rejection sampling otherwise. -/
def iterateCombinations (axes : List Axis) (maxC : ℕ) (draws : List (List ℕ)) : List Combo :=
  if totalCombos axes ≤ maxC then gridCombos axes
  else sampleCombos axes maxC draws []

/-- A combination turned into parameter bindings. -/
def comboParams (c : Combo) : Params := c.map (fun kv => (kv.1, PValue.num kv.2))

/-- The spread `{...config.fixedParams, ...combo}` — combo values override fixed ones
(the first binding of a name wins on lookup). -/
def mergeParams (fixed : Params) (c : Combo) : Params := comboParams c ++ fixed

/-- Property lookup on a parameter record (`params.name`). -/
def getParam (params : Params) (k : String) : Option PValue :=
  (params.find? (fun kv => kv.1 = k)).map (·.2)

/-- The alias chain `params.a ?? params.b ?? …`. -/
def resolveAlias (params : Params) : List String → Option PValue
  | [] => none
  | a :: rest =>
    match getParam params a with
    | some v => some v
    | none => resolveAlias params rest

/-- Coercion `Number(v)` as it feeds the fast/slow validity filters (numeric strings
are not swept by the optimizer, so strings are modelled as `NaN`). -/
def toNumJs : PValue → JsNum
  | .num q => some q
  | .bool b => some (if b then 1 else 0)
  | .str _ => none

/-- The validity filters (source lines 343-356): skip dual-MA / MACD combos
with `fast >= slow`, and triple-MA combos with `fast >= mid` or
`mid >= slow`. -/
def skipCombo (strategyType : String) (params : Params) : Bool :=
  let dual :=
    if strategyType = "dual_ma" ∨ strategyType = "macd" ∨ strategyType = "" then
      let fast := resolveAlias params ["fastLength", "fast_len", "fast", "fastPeriod", "macdFast"]
      let slow := resolveAlias params ["slowLength", "slow_len", "slow", "slowPeriod", "macdSlow"]
      match fast, slow with
      | some f, some sl => jge (toNumJs f) (toNumJs sl)
      | _, _ => false
    else false
  let triple :=
    if strategyType = "triple_ma" then
      let fast := resolveAlias params ["fast_len", "fastLength", "fast", "fastPeriod"]
      let mid := resolveAlias params ["mid_len", "midLength", "mid", "midPeriod"]
      let slow := resolveAlias params ["slow_len", "slowLength", "slow", "slowPeriod"]
      let fm := match fast, mid with
        | some f, some m => jge (toNumJs f) (toNumJs m)
        | _, _ => false
      let ms := match mid, slow with
        | some m, some sl => jge (toNumJs m) (toNumJs sl)
        | _, _ => false
      fm || ms
    else false
  dual || triple

/-- The running state of the optimizer loop: collected results, the number of
combinations actually backtested, the timed-out flag, and the count of
`Date.now()` reads performed so far. -/
structure OptState where
  backResults : List BacktestResult
  testedCount : ℕ
  timedOut    : Bool
  clockReads  : ℕ
  deriving Repr

/-- The `for combo of iterateCombinations(...)` loop of `optimize`
(source lines 331-366).  `runOne` abstracts the per-combination backtest
call (`runPineScriptBacktest` when `pineCode` is present, `runBacktest`
otherwise); `clock` gives the value of the `k`-th `Date.now()` read. -/
def optLoop (runOne : Params → BacktestResult) (clock : ℕ → ℤ)
    (config : OptimizationConfig) : List Combo → OptState → OptState
  | [], st => st
  | combo :: rest, st =>
    let deadlineStep : Option OptState :=
      match config.deadlineMs with
      | some d =>
        if st.testedCount % 50 = 0 then
          if d < clock st.clockReads then some { st with timedOut := true }
          else none
        else none
      | none => none
    match deadlineStep with
    | some stopped => stopped
    | none =>
      let st :=
        match config.deadlineMs with
        | some _ => if st.testedCount % 50 = 0 then { st with clockReads := st.clockReads + 1 } else st
        | none => st
      let params := mergeParams config.fixedParams combo
      if skipCombo config.strategyType params then optLoop runOne clock config rest st
      else
        let result := runOne params
        let result := { result with params := params }
        let st :=
          { st with
            backResults :=
              if 0 < result.totalTrades then st.backResults ++ [result] else st.backResults
            testedCount := st.testedCount + 1 }
        optLoop runOne clock config rest st

/-- The function `optimize` (the deadline-aware version, source lines 296-379).  `runOne`,
`clock` and `draws` supply the ambient effects (strategy execution, wall
clock, `Math.random`), so the function itself is total — the source contains
no `throw` and wraps the per-combination backtest in `try … catch`. -/
def optimize (runOne : Params → BacktestResult) (clock : ℕ → ℤ)
    (draws : List (List ℕ)) (config : OptimizationConfig) : OptimizationSummary :=
  let enabled := config.paramRanges.filter (·.enabled)
  if enabled = [] then
    let result := runOne config.fixedParams
    { results := [⟨1, result, scoreOf config.sortBy result⟩], testedCount := 1, timedOut := false }
  else
    let axes := mkAxes config.paramRanges
    let combos := iterateCombinations axes config.maxCombinations draws
    let st := optLoop runOne clock config combos ⟨[], 0, false, 0⟩
    let sorted := st.backResults.mergeSort
      (fun a b => jge (scoreOf config.sortBy a) (scoreOf config.sortBy b))
    { results := (sorted.take config.topN).mapIdx
        (fun i r => ⟨i + 1, r, scoreOf config.sortBy r⟩)
      testedCount := st.testedCount
      timedOut := st.timedOut }

-- ─── Generic helper lemmas ───────────────────────────────────────────────────

theorem foldl_preserve {α : Type} {β : Type} (P : α → Prop) (f : α → β → α)
    (l : List β) (init : α) (h0 : P init) (hstep : ∀ a b, P a → P (f a b)) :
    P (l.foldl f init) := by
  induction l generalizing init with
  | nil => exact h0
  | cons b bs ih => exact ih (f init b) (hstep init b h0)

theorem jget_replicate (n i : ℕ) : jget (List.replicate n none) i = none := by
  unfold jget
  rcases lt_or_le i n with h | h
  · simp [List.getD_eq_getElem?_getD, List.getElem?_replicate, h]
  · have hl : (List.replicate (α := JsNum) n none).length ≤ i := by simpa using h
    simp [List.getD_eq_getElem?_getD, List.getElem?_eq_none hl]

theorem jget_of_length_le {l : List JsNum} {i : ℕ} (h : l.length ≤ i) :
    jget l i = none := by
  unfold jget
  simp [List.getD_eq_getElem?_getD, List.getElem?_eq_none h]

theorem jget_set_self {l : List JsNum} {i : ℕ} (v : JsNum) (h : i < l.length) :
    jget (l.set i v) i = v := by
  unfold jget
  simp [List.getD_eq_getElem?_getD, List.getElem?_set, h]

theorem jget_set_ne {l : List JsNum} {i j : ℕ} (v : JsNum) (h : i ≠ j) :
    jget (l.set i v) j = jget l j := by
  unfold jget
  simp [List.getD_eq_getElem?_getD, List.getElem?_set, h]

theorem jget_map_some_lt {x : List ℚ} {i : ℕ} (h : i < x.length) :
    jget (x.map some) i = some (x.getD i 0) := by
  unfold jget
  simp [List.getD_eq_getElem?_getD, List.getElem?_map, List.getElem?_eq_getElem h]

theorem jget_map_some_le {x : List ℚ} {i : ℕ} (h : x.length ≤ i) :
    jget (x.map some) i = none := by
  apply jget_of_length_le (l := x.map some)
  rw [List.length_map]
  exact h

-- ─── C3: indicator length contract ───────────────────────────────────────────

theorem calcSMA_length (x : List JsNum) (p : ℕ) : (calcSMA x p).length = x.length := by
  unfold calcSMA
  have h := foldl_preserve (fun acc : JsNum × List JsNum => acc.2.length = x.length)
    (smaStep p x) (List.range x.length) (some 0, List.replicate x.length none)
    (by simp) ?_
  · exact h
  · intro a b ha
    unfold smaStep
    by_cases hb : p ≤ b + 1 <;> simp [hb, ha]

theorem calcWMA_length (x : List JsNum) (p : ℕ) : (calcWMA x p).length = x.length := by
  unfold calcWMA
  exact foldl_preserve (fun res : List JsNum => res.length = x.length) _ _ _
    (by simp) (fun a b ha => by simpa using ha)

theorem calcEMA_length (x : List JsNum) (p : ℕ) :
    (calcEMA x p).length = max x.length 1 := by
  unfold calcEMA
  dsimp only
  exact foldl_preserve (fun acc : JsNum × List JsNum => acc.2.length = max x.length 1)
    _ _ _
    (by dsimp only; rw [length_setExtend, List.length_replicate])
    (fun a b ha => by simpa using ha)

theorem calcRSI_length (x : List JsNum) (p : ℕ) :
    (calcRSI x p).length = max x.length (p + 1) := by
  unfold calcRSI
  dsimp only
  exact foldl_preserve
    (fun acc : JsNum × JsNum × List JsNum => acc.2.2.length = max x.length (p + 1))
    _ _ _
    (by dsimp only; rw [length_setExtend, List.length_replicate])
    (fun a b ha => by unfold rsiStep; simpa using ha)

/-- C3 (amended): all four indicator functions are pure maps from series to a
new series (no mutation is expressible in this embedding); `calcSMA` and
`calcWMA` always preserve the input length exactly, but `calcEMA` returns
length `max n 1` (its unconditional seed write extends an empty input) and
`calcRSI` returns length `max n (period+1)` (its unconditional write at index
`period` extends any input with at most `period` samples). -/
theorem indicator_length_contract :
    (∀ x p, (calcSMA x p).length = x.length) ∧
    (∀ x p, (calcWMA x p).length = x.length) ∧
    (∀ x p, (calcEMA x p).length = max x.length 1) ∧
    (∀ x p, (calcRSI x p).length = max x.length (p + 1)) :=
  ⟨calcSMA_length, calcWMA_length, calcEMA_length, calcRSI_length⟩

/-- C3 counterexample: `calcRSI` on a 2-element series with period 5 returns a
series of length 6, not 2 — the claimed exact length preservation fails. -/
theorem calcRSI_length_cex :
    ¬ ((calcRSI [some 1, some 2] 5).length = 2) := by decide

-- ─── C6: division by zero in the expression evaluator ────────────────────────

/-- C6: in the arithmetic case of `PineRuntime.evalExpr`, whenever the divisor
series is exactly `0` at bar `i`, the quotient series is `NaN` at `i`; the
evaluation is total (never throws) and the codomain has no infinities. -/
theorem evalArith_div_by_zero (a b : List JsNum) (i : ℕ) (hi : i < a.length)
    (hb : jget b i = some 0) : jget (evalArith .div a b) i = none := by
  unfold evalArith
  unfold jget at hb ⊢
  rw [List.getD_eq_getElem?_getD, List.getElem?_mapIdx,
    List.getElem?_eq_getElem hi]
  simp only [Option.map_some]
  rw [List.getD_eq_getElem?_getD] at hb
  simp [jget, List.getD_eq_getElem?_getD, hb, jeqb]

/-- C6 witness: `[5] / [0]` at index 0 evaluates to `NaN`. -/
theorem evalArith_div_by_zero_witness :
    jget (evalArith .div [some 5] [some 0]) 0 = none :=
  evalArith_div_by_zero [some 5] [some 0] 0 (by decide) (by decide)

-- ─── C5: RSI stays within [0, 100] ───────────────────────────────────────────

/-- Predicate for "`NaN` or within `[0,100]`". -/
def rngOK : JsNum → Prop
  | none => True
  | some v => 0 ≤ v ∧ v ≤ 100

/-- Predicate for "`NaN` or non-negative" — the invariant of the running averages. -/
def nnOK : JsNum → Prop
  | none => True
  | some v => 0 ≤ v

theorem jadd_nn {a b : JsNum} (ha : nnOK a) (hb : nnOK b) : nnOK (jadd a b) := by
  cases a <;> cases b <;> simp_all [jadd, nnOK]
  positivity

theorem jmul_nn {a b : JsNum} (ha : nnOK a) (hb : nnOK b) : nnOK (jmul a b) := by
  cases a <;> cases b <;> simp_all [jmul, nnOK]
  positivity

theorem jdiv_nn {a b : JsNum} (ha : nnOK a) (hb : nnOK b) : nnOK (jdiv a b) := by
  cases a with
  | none => simp [jdiv, nnOK]
  | some av =>
    cases b with
    | none => simp [jdiv, nnOK]
    | some bv =>
      by_cases hz : bv = 0
      · simp [jdiv, hz, nnOK]
      · simp only [jdiv, if_neg hz, nnOK]
        exact div_nonneg (by simpa [nnOK] using ha) (by simpa [nnOK] using hb)

theorem jgt_zero_pos {a : JsNum} (h : jgt a (some 0) = true) :
    ∃ d, a = some d ∧ 0 < d := by
  cases a with
  | none => simp [jgt] at h
  | some d => exact ⟨d, rfl, by simpa [jgt] using h⟩

theorem jlt_zero_neg {a : JsNum} (h : jlt a (some 0) = true) :
    ∃ d, a = some d ∧ d < 0 := by
  cases a with
  | none => simp [jlt] at h
  | some d => exact ⟨d, rfl, by simpa [jlt] using h⟩

/-- The value written by the RSI recurrence is `NaN` or in `[0,100]` whenever
both running averages are `NaN`-or-non-negative. -/
theorem rsiValue_rng {g l : JsNum} (hg : nnOK g) (hl : nnOK l) :
    rngOK (rsiValue g l) := by
  cases l with
  | none => cases g <;> simp [rsiValue, jeqb, jdiv, jadd, jsub, rngOK]
  | some lv =>
    by_cases hz : lv = 0
    · simp [rsiValue, jeqb, hz, rngOK]
    · have hlv : 0 < lv := lt_of_le_of_ne (by simpa [nnOK] using hl) (Ne.symm hz)
      cases g with
      | none => simp [rsiValue, jeqb, hz, jdiv, jadd, jsub, rngOK]
      | some gv =>
        have hgv : 0 ≤ gv := by simpa [nnOK] using hg
        have hq : 0 ≤ gv / lv := div_nonneg hgv hlv.le
        have h1 : (0 : ℚ) < 1 + gv / lv := by linarith
        have h2 : 100 / (1 + gv / lv) ≤ 100 := by
          rw [div_le_iff₀ h1]
          nlinarith
        have h3 : (0 : ℚ) < 100 / (1 + gv / lv) := div_pos (by norm_num) h1
        simp only [rsiValue, jeqb, decide_eq_true_eq, if_neg hz, jdiv, if_neg hz, jadd,
          if_neg (ne_of_gt h1), jsub, rngOK]
        constructor <;> linarith

/-- The non-negativity invariant of the RSI seeding loop. -/
theorem rsiSeed_nn (x : List JsNum) (p : ℕ) :
    nnOK (rsiSeed x p).1 ∧ nnOK (rsiSeed x p).2 := by
  unfold rsiSeed
  dsimp only
  have h := foldl_preserve (fun gl : JsNum × JsNum => nnOK gl.1 ∧ nnOK gl.2)
    (fun gl i =>
      let diff := jsub (jget x i) (jget x (i - 1))
      if jgt diff (some 0) then (jadd gl.1 diff, gl.2) else (gl.1, jsub gl.2 diff))
    (List.range' 1 p) (some 0, some 0) ⟨by simp [nnOK], by simp [nnOK]⟩ ?_
  · have hp : nnOK (some (p : ℚ)) := by simp [nnOK]
    exact ⟨jdiv_nn h.1 hp, jdiv_nn h.2 hp⟩
  · intro a i ha
    dsimp only
    by_cases hgtd : jgt (jsub (jget x i) (jget x (i - 1))) (some 0) = true
    · obtain ⟨d, hd, hdp⟩ := jgt_zero_pos hgtd
      rw [if_pos hgtd, hd]
      refine ⟨jadd_nn ha.1 ?_, ha.2⟩
      simpa [nnOK] using hdp.le
    · rw [if_neg hgtd]
      refine ⟨ha.1, ?_⟩
      cases hdiff : jsub (jget x i) (jget x (i - 1)) with
      | none => cases a.2 <;> simp [jsub, nnOK]
      | some d =>
        have hd0 : d ≤ 0 := by
          by_contra hc
          exact hgtd (by simp [hdiff, jgt]; linarith)
        cases h2 : a.2 with
        | none => simp [jsub, nnOK]
        | some l2 =>
          have : 0 ≤ l2 := by have := ha.2; rw [h2] at this; simpa [nnOK] using this
          simp only [jsub, nnOK]
          linarith

/-- One step of the Wilder recurrence keeps the averages `NaN`-or-non-negative
and writes only `NaN`-or-in-range values. -/
theorem rsiStep_preserve (x : List JsNum) (p : ℕ) (acc : JsNum × JsNum × List JsNum)
    (i : ℕ) (h : nnOK acc.1 ∧ nnOK acc.2.1 ∧ ∀ y ∈ acc.2.2, rngOK y) :
    nnOK (rsiStep x p acc i).1 ∧ nnOK (rsiStep x p acc i).2.1 ∧
      ∀ y ∈ (rsiStep x p acc i).2.2, rngOK y := by
  obtain ⟨hg, hl, hres⟩ := h
  unfold rsiStep
  dsimp only
  set diff := jsub (jget x i) (jget x (i - 1)) with hdiff
  have hgain : nnOK (if jgt diff (some 0) then diff else some 0) := by
    by_cases hc : jgt diff (some 0) = true
    · obtain ⟨d, hd, hdp⟩ := jgt_zero_pos hc
      rw [if_pos hc, hd]
      simpa [nnOK] using hdp.le
    · rw [if_neg hc]
      simp [nnOK]
  have hloss : nnOK (if jlt diff (some 0) then jneg diff else some 0) := by
    by_cases hc : jlt diff (some 0) = true
    · obtain ⟨d, hd, hdn⟩ := jlt_zero_neg hc
      rw [if_pos hc, hd]
      simp only [jneg, nnOK]
      linarith
    · rw [if_neg hc]
      simp [nnOK]
  have havg : ∀ a g : JsNum, nnOK a → nnOK g →
      nnOK (jdiv (jadd (jmul a (some ((p : ℚ) - 1))) g) (some (p : ℚ))) := by
    intro a g ha hgn
    rcases Nat.eq_zero_or_pos p with hp | hp
    · subst hp
      cases jadd (jmul a (some ((0 : ℚ) - 1))) g <;> simp [jdiv, nnOK]
    · have hpm : nnOK (some ((p : ℚ) - 1)) := by
        have : (1 : ℚ) ≤ (p : ℚ) := by exact_mod_cast hp
        simp only [nnOK]
        linarith
      exact jdiv_nn (jadd_nn (jmul_nn ha hpm) hgn) (by simp [nnOK])
  have hg2 := havg acc.1 _ hg hgain
  have hl2 := havg acc.2.1 _ hl hloss
  refine ⟨hg2, hl2, ?_⟩
  intro y hy
  rcases List.mem_or_eq_of_mem_set hy with hmem | hval
  · exact hres y hmem
  · rw [hval]
    exact rsiValue_rng hg2 hl2

/-- Every element of a `calcRSI` output is `NaN` or in `[0,100]`. -/
theorem calcRSI_mem_rng (x : List JsNum) (p : ℕ) :
    ∀ y ∈ calcRSI x p, rngOK y := by
  unfold calcRSI
  dsimp only
  have hseed := rsiSeed_nn x p
  have hres0 : ∀ y ∈ setExtend (List.replicate x.length none) p
      (rsiValue (rsiSeed x p).1 (rsiSeed x p).2), rngOK y := by
    intro y hy
    unfold setExtend at hy
    by_cases hc : p < (List.replicate (α := JsNum) x.length none).length
    · rw [if_pos hc] at hy
      rcases List.mem_or_eq_of_mem_set hy with hmem | hval
      · rw [List.eq_of_mem_replicate hmem]
        trivial
      · rw [hval]
        exact rsiValue_rng hseed.1 hseed.2
    · rw [if_neg hc] at hy
      rcases List.mem_append.1 hy with hy1 | hy2
      · rcases List.mem_append.1 hy1 with hy3 | hy4
        · rw [List.eq_of_mem_replicate hy3]
          trivial
        · rw [List.eq_of_mem_replicate hy4]
          trivial
      · rw [List.mem_singleton.1 hy2]
        exact rsiValue_rng hseed.1 hseed.2
  have h := foldl_preserve
    (fun acc : JsNum × JsNum × List JsNum =>
      nnOK acc.1 ∧ nnOK acc.2.1 ∧ ∀ y ∈ acc.2.2, rngOK y)
    (rsiStep x p) (List.range' (p + 1) (x.length - (p + 1)))
    ((rsiSeed x p).1, (rsiSeed x p).2,
      setExtend (List.replicate x.length none) p (rsiValue (rsiSeed x p).1 (rsiSeed x p).2))
    ⟨hseed.1, hseed.2, hres0⟩ (fun a b ha => rsiStep_preserve x p a b ha)
  exact h.2.2

/-- C5: every defined (non-`NaN`) value of `calcRSI` lies within `[0,100]`,
and whenever the running average loss is exactly `0`, the value written at
that index is exactly `100`. -/
theorem calcRSI_range_bounds :
    (∀ x p i, rngOK (jget (calcRSI x p) i)) ∧
    (∀ g, rsiValue g (some 0) = some 100) := by
  constructor
  · intro x p i
    rcases lt_or_le i (calcRSI x p).length with h | h
    · have := calcRSI_mem_rng x p (jget (calcRSI x p) i) ?_
      · exact this
      · unfold jget
        rw [List.getD_eq_getElem?_getD, List.getElem?_eq_getElem h]
        exact List.getElem_mem h
    · rw [jget_of_length_le h]
      trivial
  · intro g
    simp [rsiValue, jeqb]

-- ─── C4: SMA equals the trailing-window mean ─────────────────────────────────

/-- The specified value of an SMA entry, following the spec's words: the
arithmetic mean of the window `x[i-p+1 .. i]` (`NaN`-propagating, so a window
containing `NaN` has mean `NaN`). -/
def smaMean (x : List JsNum) (p i : ℕ) : JsNum :=
  jdiv (((x.drop (i + 1 - p)).take p).foldl jadd (some 0)) (some (p : ℚ))

theorem foldl_jadd_map_some (x : List ℚ) (s : ℚ) :
    (x.map some).foldl jadd (some s) = some (s + x.sum) := by
  induction x generalizing s with
  | nil => simp
  | cons a as ih =>
    simp only [List.map_cons, List.foldl_cons, jadd, List.sum_cons]
    rw [ih (s + a)]
    ring_nf

theorem sum_take_succ_getD (x : List ℚ) (m : ℕ) (h : m < x.length) :
    (x.take (m + 1)).sum = (x.take m).sum + x.getD m 0 := by
  rw [List.sum_take_succ _ _ h]
  congr 1
  rw [List.getD_eq_getElem _ _ h]

/-- The rolling-sum invariant of the `calcSMA` loop over a `NaN`-free input:
after `m` iterations the running sum is the difference of two prefix sums,
and every written entry is the corresponding window sum divided by `p`. -/
theorem smaLoop_invariant (x : List ℚ) (p : ℕ) (hp : 1 ≤ p) :
    ∀ m, m ≤ x.length →
      ((List.range m).foldl (smaStep p (x.map some))
          (some 0, List.replicate x.length none)).1
        = some ((x.take m).sum - (x.take (m - p)).sum) ∧
      ((List.range m).foldl (smaStep p (x.map some))
          (some 0, List.replicate x.length none)).2.length = x.length ∧
      (∀ j, jget ((List.range m).foldl (smaStep p (x.map some))
          (some 0, List.replicate x.length none)).2 j =
        if j < m ∧ p ≤ j + 1
        then some (((x.take (j + 1)).sum - (x.take (j + 1 - p)).sum) / (p : ℚ))
        else none) := by
  intro m
  induction m with
  | zero =>
    intro _
    refine ⟨by simp, by simp, ?_⟩
    intro j
    simp [jget_replicate]
  | succ m ih =>
    intro hm1
    have hxm : m < x.length := hm1
    obtain ⟨ih1, ih2, ih3⟩ := ih (Nat.le_of_lt hxm)
    rw [List.range_succ, List.foldl_append]
    set acc := (List.range m).foldl (smaStep p (x.map some))
      (some 0, List.replicate x.length none) with hacc
    simp only [List.foldl_cons, List.foldl_nil]
    unfold smaStep
    dsimp only
    have hjm : jget (x.map some) m = some (x.getD m 0) := jget_map_some_lt hxm
    have hsum : (if p ≤ m then jsub (jadd acc.1 (jget (x.map some) m))
          (jget (x.map some) (m - p)) else jadd acc.1 (jget (x.map some) m))
        = some ((x.take (m + 1)).sum - (x.take (m + 1 - p)).sum) := by
      by_cases hpm : p ≤ m
      · have hmp : m - p < x.length := lt_of_le_of_lt (Nat.sub_le m p) hxm
        rw [if_pos hpm, ih1, hjm, jget_map_some_lt hmp]
        simp only [jadd, jsub, Option.some.injEq]
        have e1 : (x.take (m + 1)).sum = (x.take m).sum + x.getD m 0 :=
          sum_take_succ_getD x m hxm
        have e2 : m + 1 - p = (m - p) + 1 := by omega
        have e3 : (x.take (m + 1 - p)).sum = (x.take (m - p)).sum + x.getD (m - p) 0 := by
          rw [e2]
          exact sum_take_succ_getD x (m - p) hmp
        rw [e1, e3]
        ring
      · have e0 : m - p = 0 := by omega
        have e4 : m + 1 - p = 0 := by omega
        rw [if_neg hpm, ih1, hjm]
        simp only [jadd, Option.some.injEq, e0, e4]
        have e1 : (x.take (m + 1)).sum = (x.take m).sum + x.getD m 0 :=
          sum_take_succ_getD x m hxm
        rw [e1]
        simp only [List.take_zero, List.sum_nil]
        ring
    rw [hsum]
    refine ⟨rfl, ?_, ?_⟩
    · by_cases hw : p ≤ m + 1
      · rw [if_pos hw]
        simpa using ih2
      · rw [if_neg hw]
        exact ih2
    · intro j
      by_cases hw : p ≤ m + 1
      · rw [if_pos hw]
        by_cases hj : j = m
        · subst hj
          have hlen : j < ((List.range j).foldl (smaStep p (x.map some))
              (some 0, List.replicate x.length none)).2.length := by
            rw [ih2]; exact hxm
          rw [jget_set_self _ hlen]
          rw [if_pos ⟨Nat.lt_succ_self j, hw⟩]
          have hpz : ((p : ℚ)) ≠ 0 := by
            have h1 : (1 : ℚ) ≤ (p : ℚ) := by exact_mod_cast hp
            linarith
          simp only [jdiv, Option.some.injEq]
          rw [if_neg hpz]
        · rw [jget_set_ne _ (Ne.symm hj), ih3 j]
          by_cases hc : j < m ∧ p ≤ j + 1
          · rw [if_pos hc, if_pos ⟨Nat.lt_succ_of_lt hc.1, hc.2⟩]
          · rw [if_neg hc, if_neg (by omega)]
      · rw [if_neg hw, ih3 j]
        by_cases hc : j < m ∧ p ≤ j + 1
        · rw [if_pos hc, if_pos ⟨Nat.lt_succ_of_lt hc.1, hc.2⟩]
        · rw [if_neg hc, if_neg (by omega)]

/-- C4 (amended): over a `NaN`-free input series, `calcSMA(x,p)[i]` is `NaN`
for `i < p-1` and the exact arithmetic mean of the window `x[i-p+1..i]` for
`i ≥ p-1`.  (On inputs containing `NaN` the rolling sum is poisoned
permanently, see the counterexample.) -/
theorem calcSMA_window_mean (x : List ℚ) (p i : ℕ) (hp : 1 ≤ p) (hi : i < x.length) :
    jget (calcSMA (x.map some) p) i =
      if i + 1 < p then none else smaMean (x.map some) p i := by
  have hlen : (x.map some).length = x.length := by simp
  have hinv := (smaLoop_invariant x p hp x.length le_rfl).2.2 i
  unfold calcSMA
  rw [hlen]
  rw [hinv]
  by_cases hc : p ≤ i + 1
  · rw [if_pos ⟨hi, hc⟩, if_neg (by omega)]
    unfold smaMean
    have hcomm1 : (x.map some).drop (i + 1 - p) = (x.drop (i + 1 - p)).map some := by
      rw [List.map_drop]
    have hcomm2 : ((x.drop (i + 1 - p)).map some).take p = ((x.drop (i + 1 - p)).take p).map some := by
      rw [List.map_take]
    rw [hcomm1, hcomm2, foldl_jadd_map_some]
    have hpz : ((p : ℚ)) ≠ 0 := by
      have h1 : (1 : ℚ) ≤ (p : ℚ) := by exact_mod_cast hp
      linarith
    simp only [jdiv, if_neg hpz, Option.some.injEq, zero_add]
    have hws : ((x.drop (i + 1 - p)).take p).sum
        = (x.take (i + 1)).sum - (x.take (i + 1 - p)).sum := by
      have e : (i + 1 - p) + p = i + 1 := by omega
      have h2 := List.take_add x (i + 1 - p) p
      rw [e] at h2
      rw [h2, List.sum_append]
      ring
    rw [hws]
  · rw [if_neg (by omega), if_pos (by omega)]

/-- C4 counterexample: with `x = [NaN, 1, 3]` and `p = 2`, the window
`x[1..2]` is `NaN`-free with mean `2`, yet `calcSMA` returns `NaN` at index 2
(the rolling sum was permanently poisoned by the `NaN` at index 0), so the
claim fails as stated for arbitrary input series. -/
theorem calcSMA_nan_window_cex :
    ¬ (jget (calcSMA [none, some 1, some 3] 2) 2 = smaMean [none, some 1, some 3] 2 2) := by
  decide

/-- C4 witness: `x = [2,1,4,8]`, `p = 2`, `i = 2` — the output entry equals
the window mean `(1+4)/2`. -/
theorem calcSMA_window_mean_witness :
    jget (calcSMA ([2, 1, 4, 8].map some) 2) 2 =
      (if 2 + 1 < 2 then none else smaMean ([2, 1, 4, 8].map some) 2 2) :=
  calcSMA_window_mean [2, 1, 4, 8] 2 2 (by decide) (by decide)

-- ─── C1: the equity curve and the forced end-of-data close ───────────────────

theorem equityProd_append (ts : List Trade) (t : Trade) :
    equityProd (ts ++ [t]) = equityAfter (equityProd ts) t := by
  unfold equityProd
  rw [List.foldl_append]
  rfl

/-- The bar-loop invariant: the equity curve starts at 100, its last entry is
the current equity, and the current equity is 100 times the product of
`(1 + pnlPct/100)` over the trades realized so far. -/
def simInv (s : SimState) : Prop :=
  s.equityCurve.head? = some (some 100) ∧
  s.equityCurve.getLast? = some s.equity ∧
  s.equity = equityProd s.trades

theorem simInv_init : simInv initSimState := by
  refine ⟨rfl, rfl, ?_⟩
  rfl

theorem head?_concat_of {l : List JsNum} {x a : JsNum} (h : l.head? = some x) :
    (l ++ [a]).head? = some x := by
  rw [List.head?_append, h]
  rfl

theorem closeOpen_prod (ohlcv : List OHLCV) (aType : AssetType) (pv : ℚ) (i : ℕ)
    (price : ℚ) (pos : Option OpenPos) (equity : JsNum) (trades : List Trade)
    (h : equity = equityProd trades) :
    (closeOpen ohlcv aType pv i price pos equity trades).1
      = equityProd (closeOpen ohlcv aType pv i price pos equity trades).2 := by
  cases pos with
  | none => exact h
  | some p =>
    simp only [closeOpen, equityProd_append]
    rw [h]

theorem simInv_push2 {s1 : SimState} (hh : s1.equityCurve.head? = some (some 100))
    (hp : s1.equity = equityProd s1.trades) :
    simInv { s1 with equityCurve := s1.equityCurve ++ [s1.equity] } :=
  ⟨head?_concat_of hh, List.getLast?_concat _, hp⟩

theorem simInv_dualStep (ohlcv : List OHLCV) (fastMA slowMA : List JsNum)
    (aType : AssetType) (pv : ℚ) (s : SimState) (i : ℕ) (h : simInv s) :
    simInv (dualStep ohlcv fastMA slowMA aType pv s i) := by
  unfold dualStep
  dsimp only
  split_ifs <;>
    first
      | exact simInv_push2 h.1 h.2.2
      | exact simInv_push2 h.1 (closeOpen_prod _ _ _ _ _ _ _ _ h.2.2)

theorem simInv_dualMASim (ohlcv : List OHLCV) (fastMA slowMA : List JsNum)
    (start : ℕ) (aType : AssetType) (pv : ℚ) :
    simInv (dualMASim ohlcv fastMA slowMA start aType pv) := by
  unfold dualMASim
  exact foldl_preserve simInv _ _ _ simInv_init
    (fun a b ha => simInv_dualStep ohlcv fastMA slowMA aType pv a b ha)

theorem pineSignalStep_prod (ohlcv : List OHLCV) (aType : AssetType) (pv : ℚ)
    (cond : String → ℕ → Bool) (i : ℕ) (st : JsNum × Option OpenPos × List Trade)
    (sig : StrategySignal) (h : st.1 = equityProd st.2.2) :
    (pineSignalStep ohlcv aType pv cond i st sig).1
      = equityProd (pineSignalStep ohlcv aType pv cond i st sig).2.2 := by
  unfold pineSignalStep
  by_cases hc : cond sig.condName i
  · simp only [hc, Bool.not_true, Bool.false_eq_true, if_false]
    cases sig.type with
    | long =>
      by_cases hd : posDir st.2.1 ≠ some Dir.long
      · simp only [if_pos hd]
        exact closeOpen_prod _ _ _ _ _ _ _ _ h
      · simp only [if_neg hd]
        exact h
    | short =>
      by_cases hd : posDir st.2.1 ≠ some Dir.short
      · simp only [if_pos hd]
        exact closeOpen_prod _ _ _ _ _ _ _ _ h
      · simp only [if_neg hd]
        exact h
    | closeLong =>
      by_cases hd : posDir st.2.1 = some Dir.long
      · simp only [if_pos hd]
        exact closeOpen_prod _ _ _ _ _ _ _ _ h
      · simp only [if_neg hd]
        exact h
    | closeShort =>
      by_cases hd : posDir st.2.1 = some Dir.short
      · simp only [if_pos hd]
        exact closeOpen_prod _ _ _ _ _ _ _ _ h
      · simp only [if_neg hd]
        exact h
    | closeAll =>
      cases hp : st.2.1 with
      | some p =>
        simp only [hp]
        have h2 := closeOpen_prod ohlcv aType pv i (closeAt ohlcv i) st.2.1 st.1 st.2.2 h
        rw [hp] at h2
        exact h2
      | none =>
        simp only [hp]
        exact h
  · simp only [hc, Bool.not_false, if_true]
    exact h

theorem simInv_pineBarStep (signals : List StrategySignal) (cond : String → ℕ → Bool)
    (ohlcv : List OHLCV) (aType : AssetType) (pv : ℚ) (s : SimState) (i : ℕ)
    (h : simInv s) : simInv (pineBarStep signals cond ohlcv aType pv s i) := by
  unfold pineBarStep
  dsimp only
  have hfold := foldl_preserve
    (fun st : JsNum × Option OpenPos × List Trade => st.1 = equityProd st.2.2)
    (pineSignalStep ohlcv aType pv cond i) signals (s.equity, s.position, s.trades)
    h.2.2 (fun a b ha => pineSignalStep_prod ohlcv aType pv cond i a b ha)
  exact ⟨head?_concat_of h.1, List.getLast?_concat _, hfold⟩

theorem simInv_pineSim (signals : List StrategySignal) (cond : String → ℕ → Bool)
    (ohlcv : List OHLCV) (aType : AssetType) (pv : ℚ) :
    simInv (pineSim signals cond ohlcv aType pv) := by
  unfold pineSim
  exact foldl_preserve simInv _ _ _ simInv_init
    (fun a b ha => simInv_pineBarStep signals cond ohlcv aType pv a b ha)

/-- C1 (amended): in both cited engines (dual-MA preset and the PineScript
runtime) the equity curve starts at 100 and its final entry equals 100 times
the product of `(1 + pnlPct/100)` over exactly the trades closed during the
bar loop; the trade created by the end-of-data forced close is appended to
the returned trade list but the equity curve is never updated for it, so the
claimed identity over the full returned trade list fails (see the
counterexample). -/
theorem equity_curve_loop_product :
    (∀ ops ohlcv fast slow maType cfg,
      let s := dualMASim ohlcv (getMA (ohlcv.map (fun b => some b.close)) fast maType)
        (getMA (ohlcv.map (fun b => some b.close)) slow maType) (max fast slow)
        cfg.type cfg.pointValue
      (backtestDualMA ops ohlcv fast slow maType cfg).equityCurve = s.equityCurve ∧
      s.equityCurve.head? = some (some 100) ∧
      s.equityCurve.getLast? = some (equityProd s.trades) ∧
      (backtestDualMA ops ohlcv fast slow maType cfg).trades
        = s.trades ++ forcedClose ohlcv cfg.type cfg.pointValue s) ∧
    (∀ ops signals cond params ohlcv cfg,
      let s := pineSim signals cond ohlcv cfg.type cfg.pointValue
      (runPineScriptBacktest ops signals cond params ohlcv cfg).equityCurve = s.equityCurve ∧
      s.equityCurve.head? = some (some 100) ∧
      s.equityCurve.getLast? = some (equityProd s.trades) ∧
      (runPineScriptBacktest ops signals cond params ohlcv cfg).trades
        = s.trades ++ forcedClose ohlcv cfg.type cfg.pointValue s) := by
  constructor
  · intro ops ohlcv fast slow maType cfg
    have h := simInv_dualMASim ohlcv
      (getMA (ohlcv.map (fun b => some b.close)) fast maType)
      (getMA (ohlcv.map (fun b => some b.close)) slow maType)
      (max fast slow) cfg.type cfg.pointValue
    exact ⟨rfl, h.1, h.2.2 ▸ h.2.1, rfl⟩
  · intro ops signals cond params ohlcv cfg
    have h := simInv_pineSim signals cond ohlcv cfg.type cfg.pointValue
    exact ⟨rfl, h.1, h.2.2 ▸ h.2.1, rfl⟩

def cexOps : FloatOps := ⟨fun _ => none, fun _ _ => none⟩

def cexBar (t : ℤ) (c : ℚ) : OHLCV := ⟨t, c, c, c, c, 0⟩

def cexBars : List OHLCV :=
  [cexBar 0 2, cexBar 86400000 1, cexBar 172800000 4, cexBar 259200000 8]

def cexCfg : AssetConfig := ⟨AssetType.crypto, 1⟩

/-- C1 counterexample: on closes `[2,1,4,8]` with a 1/2-period SMA cross, a
long opened at bar 2 is force-closed at the last bar with `pnlPct = 100`, so
100 times the product over the returned trade list is 200, yet the final
equity-curve entry is 100 — the claimed identity over every returned trade
(forced close included) is false. -/
theorem cexSMA1 : getMA [some 2, some 1, some 4, some 8] 1 "SMA"
    = [some 2, some 1, some 4, some 8] := by
  unfold getMA calcSMA
  rw [if_neg (by decide), if_neg (by decide)]
  have hr : List.range (List.length [some (2:ℚ), some 1, some 4, some 8]) = [0,1,2,3] := rfl
  rw [hr]
  norm_num [smaStep, jget, jadd, jsub, jdiv, List.getD_cons_zero, List.getD_cons_succ,
    List.replicate_succ]

theorem cexSMA2 : getMA [some 2, some 1, some 4, some 8] 2 "SMA"
    = [none, some (3/2), some (5/2), some 6] := by
  unfold getMA calcSMA
  rw [if_neg (by decide), if_neg (by decide)]
  have hr : List.range (List.length [some (2:ℚ), some 1, some 4, some 8]) = [0,1,2,3] := rfl
  rw [hr]
  norm_num [smaStep, jget, jadd, jsub, jdiv, List.getD_cons_zero, List.getD_cons_succ,
    List.replicate_succ]

theorem cexSim : dualMASim cexBars [some 2, some 1, some 4, some 8]
      [none, some (3/2), some (5/2), some 6] 2 AssetType.crypto 1
    = ⟨some 100, [some 100, some 100, some 100], some ⟨2, 4, Dir.long⟩, []⟩ := by
  unfold dualMASim
  have hr : List.range' 2 (cexBars.length - 2) = [2, 3] := rfl
  rw [hr]
  norm_num [dualStep, initSimState, jget, jlt, jgt, jle, jge, posDir, closeOpen, closeAt,
    cexBars, cexBar, List.getD_cons_zero, List.getD_cons_succ]
  simp +decide

theorem equity_curve_forced_close_cex :
    ¬ ((backtestDualMA cexOps cexBars 1 2 "SMA" cexCfg).equityCurve.getLast?
      = some (equityProd (backtestDualMA cexOps cexBars 1 2 "SMA" cexCfg).trades)) := by
  have h1 : cexBars.map (fun b => some b.close) = [some 2, some 1, some 4, some 8] := rfl
  have h2 : (backtestDualMA cexOps cexBars 1 2 "SMA" cexCfg).equityCurve
      = [some 100, some 100, some 100] := by
    unfold backtestDualMA
    rw [h1]
    dsimp only
    rw [cexSMA1, cexSMA2]
    simp only [cexCfg]
    rw [show max 1 2 = 2 from rfl, cexSim]
  have h3 : (backtestDualMA cexOps cexBars 1 2 "SMA" cexCfg).trades
      = [closeTrade ⟨2, 4, Dir.long⟩ 3 8 cexBars AssetType.crypto 1] := by
    unfold backtestDualMA
    rw [h1]
    dsimp only
    rw [cexSMA1, cexSMA2]
    simp only [cexCfg]
    rw [show max 1 2 = 2 from rfl, cexSim]
    norm_num [forcedClose, closeAt, cexBars, cexBar]
  rw [h2, h3]
  norm_num [equityProd, equityAfter, closeTrade, jmul, jadd, jdiv, cexBars, cexBar]

-- ─── C2: no hard failures in the optimizer ───────────────────────────────────

/-- A range whose `min` exceeds `max` by more than the `1e-10` grid epsilon
expands to an empty value list. -/
theorem axisValues_empty {r : ParamRange} (h : r.max + 1 / 10000000000 < r.min) :
    axisValues r = [] := by
  unfold axisValues
  dsimp only
  rw [if_pos h]

theorem gridCombos_of_empty_axis {axes : List Axis} {ax : Axis} (hmem : ax ∈ axes)
    (hv : ax.values = []) : gridCombos axes = [] := by
  induction axes with
  | nil => cases hmem
  | cons a rest ih =>
    rcases List.mem_cons.1 hmem with rfl | htail
    · unfold gridCombos
      rw [hv]
      rfl
    · unfold gridCombos
      rw [ih htail]
      simp

theorem totalCombos_of_empty_axis {axes : List Axis} {ax : Axis} (hmem : ax ∈ axes)
    (hv : ax.values = []) : totalCombos axes = 0 := by
  unfold totalCombos
  refine List.prod_eq_zero ?_
  have : ax.values.length ∈ axes.map (·.values.length) := List.mem_map_of_mem _ hmem
  rw [hv] at this
  simpa using this

/-- With a `min > max + ε` enabled range the optimizer tests zero combinations
and returns the empty summary — no validation, no error. -/
theorem optimize_badRange (runOne : Params → BacktestResult) (clock : ℕ → ℤ)
    (draws : List (List ℕ)) (config : OptimizationConfig) (r : ParamRange)
    (hmem : r ∈ config.paramRanges) (hen : r.enabled = true)
    (hbad : r.max + 1 / 10000000000 < r.min) :
    optimize runOne clock draws config = ⟨[], 0, false⟩ := by
  unfold optimize
  have hfil : r ∈ config.paramRanges.filter (·.enabled) := List.mem_filter.2 ⟨hmem, hen⟩
  rw [if_neg (List.ne_nil_of_mem hfil)]
  dsimp only
  have haxmem : (⟨r.varName, axisValues r⟩ : Axis) ∈ mkAxes config.paramRanges :=
    List.mem_map_of_mem _ hfil
  have hax : (⟨r.varName, axisValues r⟩ : Axis).values = [] := axisValues_empty hbad
  have hcombos : iterateCombinations (mkAxes config.paramRanges)
      config.maxCombinations draws = [] := by
    unfold iterateCombinations
    rw [if_pos (by rw [totalCombos_of_empty_axis haxmem hax]; exact Nat.zero_le _)]
    exact gridCombos_of_empty_axis haxmem hax
  rw [hcombos]
  simp [optLoop]

def zeroResult : BacktestResult :=
  { toBacktestMetrics := zeroMetrics, params := [], trades := []
    equityCurve := [some 100], monthlyPnL := [] }

def c2Range : ParamRange := ⟨"fastLength", "Fast", PType.int, 5, 2, 1, true⟩

def c2Cfg : OptimizationConfig :=
  ⟨"dual_ma", none, [c2Range], [], 100, SortKey.totalReturnPct, 50, none⟩

/-- C2 (amended): the optimizer performs no input validation and raises no
hard failure at all.  A `ParamRange` with `min > max` (beyond the `1e-10`
grid epsilon) yields an empty value axis, so zero combinations are tested and
a well-formed empty summary is returned; an empty bar list flows through the
backtest and produces a zero-trade result with the initial equity curve; the
embedding is total, mirroring a source with no `throw` and a `try`/`catch`
around each per-combination backtest. -/
theorem optimize_no_hard_failure :
    (∀ runOne clock draws config,
      (∃ r ∈ config.paramRanges, r.enabled = true ∧ r.max + 1 / 10000000000 < r.min) →
      optimize runOne clock draws config = ⟨[], 0, false⟩) ∧
    (∀ ops fast slow maType cfg,
      (backtestDualMA ops ([] : List OHLCV) fast slow maType cfg).trades = [] ∧
      (backtestDualMA ops ([] : List OHLCV) fast slow maType cfg).equityCurve = [some 100] ∧
      (backtestDualMA ops ([] : List OHLCV) fast slow maType cfg).totalTrades = 0) := by
  constructor
  · intro runOne clock draws config hex
    obtain ⟨r, hmem, hen, hbad⟩ := hex
    exact optimize_badRange runOne clock draws config r hmem hen hbad
  · intro ops fast slow maType cfg
    have hsim : dualMASim ([] : List OHLCV)
        (getMA (([] : List OHLCV).map (fun b => some b.close)) fast maType)
        (getMA (([] : List OHLCV).map (fun b => some b.close)) slow maType)
        (max fast slow) cfg.type cfg.pointValue = initSimState := by
      unfold dualMASim
      rw [show ([] : List OHLCV).length - max fast slow = 0 from by simp]
      rfl
    refine ⟨?_, ?_, ?_⟩ <;>
      · unfold backtestDualMA
        dsimp only
        rw [hsim]
        rfl

/-- C2 witness: a concrete `dual_ma` optimization whose single enabled range
has `min = 5 > max = 2` returns the empty summary. -/
theorem optimize_no_hard_failure_witness :
    optimize (fun _ => zeroResult) (fun _ => 0) [] c2Cfg = ⟨[], 0, false⟩ :=
  (optimize_no_hard_failure).1 (fun _ => zeroResult) (fun _ => 0) [] c2Cfg
    ⟨c2Range, by simp [c2Cfg], rfl, by norm_num [c2Range]⟩

/-- C2 counterexample: the claim says a `min > max` range raises a hard
failure before the loop starts; in fact the same concrete configuration
returns the ordinary, well-formed empty summary (the optimizer has no
validation or `throw` at all). -/
theorem optimize_min_gt_max_cex :
    optimize (fun _ => zeroResult) (fun _ => 0) [] c2Cfg = ⟨[], 0, false⟩ ∧
    c2Range.min > c2Range.max :=
  ⟨optimize_badRange (fun _ => zeroResult) (fun _ => 0) [] c2Cfg c2Range
    (by simp [c2Cfg]) rfl (by norm_num [c2Range]), by norm_num [c2Range]⟩

-- ─── C9: zero-trade optimizations ────────────────────────────────────────────

theorem optLoop_backResults_nil (runOne : Params → BacktestResult) (clock : ℕ → ℤ)
    (config : OptimizationConfig) (h0 : ∀ p, (runOne p).totalTrades = 0) :
    ∀ combos st, st.backResults = [] →
      (optLoop runOne clock config combos st).backResults = [] := by
  intro combos
  induction combos with
  | nil =>
    intro st h
    exact h
  | cons c rest ih =>
    intro st h
    unfold optLoop
    cases hdl : config.deadlineMs with
    | some d =>
      dsimp only [hdl]
      by_cases h50 : st.testedCount % 50 = 0
      · simp only [if_pos h50]
        by_cases hlate : d < clock st.clockReads
        · rw [if_pos hlate]
          exact h
        · rw [if_neg hlate]
          dsimp only
          by_cases hskip : skipCombo config.strategyType (mergeParams config.fixedParams c) = true
          · rw [if_pos hskip]
            exact ih _ h
          · rw [if_neg hskip]
            refine ih _ ?_
            simp [h0, h]
      · simp only [if_neg h50]
        by_cases hskip : skipCombo config.strategyType (mergeParams config.fixedParams c) = true
        · rw [if_pos hskip]
          exact ih _ h
        · rw [if_neg hskip]
          refine ih _ ?_
          simp [h0, h]
    | none =>
      dsimp only [hdl]
      by_cases hskip : skipCombo config.strategyType (mergeParams config.fixedParams c) = true
      · rw [if_pos hskip]
        exact ih _ h
      · rw [if_neg hskip]
        refine ih _ ?_
        simp [h0, h]

theorem optimize_zero_results (runOne : Params → BacktestResult) (clock : ℕ → ℤ)
    (draws : List (List ℕ)) (config : OptimizationConfig)
    (hen : ∃ r ∈ config.paramRanges, r.enabled = true)
    (h0 : ∀ p, (runOne p).totalTrades = 0) :
    (optimize runOne clock draws config).results = [] := by
  obtain ⟨r, hmem, henr⟩ := hen
  unfold optimize
  rw [if_neg (List.ne_nil_of_mem (List.mem_filter.2 ⟨hmem, henr⟩))]
  dsimp only
  rw [optLoop_backResults_nil runOne clock config h0 _ _ rfl]
  simp

/-- C9 (amended): `calcMetrics` returns the all-zero record for an empty
trade list, and an optimization with at least one enabled range in which
every tested combination produces zero trades (or is filtered out) returns an
empty, well-formed summary without failing.  With no enabled range the
optimizer instead returns the single fixed-parameter result unfiltered, even
when it has zero trades — see the counterexample. -/
theorem optimize_zero_trades_empty :
    (∀ ops curve bars, calcMetrics ops [] curve bars = zeroMetrics) ∧
    (∀ runOne clock draws config,
      (∃ r ∈ config.paramRanges, r.enabled = true) →
      (∀ p, (runOne p).totalTrades = 0) →
      (optimize runOne clock draws config).results = []) :=
  ⟨fun _ _ _ => rfl, optimize_zero_results⟩

def c9Range : ParamRange := ⟨"fastLength", "Fast", PType.int, 1, 2, 1, true⟩

def c9Cfg : OptimizationConfig :=
  ⟨"rsi", none, [c9Range], [], 100, SortKey.totalReturnPct, 50, none⟩

def c9CfgEmpty : OptimizationConfig :=
  ⟨"dual_ma", none, [], [], 100, SortKey.totalReturnPct, 50, none⟩

/-- C9 witness: with one enabled range and a runner that always produces zero
trades, the optimizer returns an empty result list. -/
theorem optimize_zero_trades_empty_witness :
    calcMetrics cexOps [] [] [] = zeroMetrics ∧
    (optimize (fun _ => zeroResult) (fun _ => 0) [] c9Cfg).results = [] :=
  ⟨(optimize_zero_trades_empty).1 cexOps [] [],
    (optimize_zero_trades_empty).2 (fun _ => zeroResult) (fun _ => 0) [] c9Cfg
      ⟨c9Range, by simp [c9Cfg], rfl⟩ (fun _ => rfl)⟩

/-- C9 counterexample: with no enabled parameter range, the single tested
(fixed-parameter) combination produces zero trades, yet `optimize` returns it
as a ranked result — the results list is not empty, contradicting the claim
for this class of zero-trade optimizations. -/
theorem optimize_zero_trades_cex :
    zeroResult.totalTrades = 0 ∧
    (optimize (fun _ => zeroResult) (fun _ => 0) [] c9CfgEmpty).results
      = [⟨1, zeroResult, some 0⟩] :=
  ⟨rfl, rfl⟩

-- ─── C7: sampling above the combination cap ──────────────────────────────────

theorem sampleCombos_length_le (axes : List Axis) (maxC : ℕ) :
    ∀ draws seen, (sampleCombos axes maxC draws seen).length ≤ maxC - seen.length := by
  intro draws
  induction draws with
  | nil =>
    intro seen
    simp [sampleCombos]
  | cons d ds ih =>
    intro seen
    unfold sampleCombos
    by_cases hfull : maxC ≤ seen.length
    · rw [if_pos hfull]
      simp
    · rw [if_neg hfull]
      dsimp only
      by_cases hseen : mkCombo axes d ∈ seen
      · rw [if_pos hseen]
        exact ih seen
      · rw [if_neg hseen]
        have h2 := ih (mkCombo axes d :: seen)
        simp only [List.length_cons] at h2 ⊢
        omega

theorem sampleCombos_fresh (axes : List Axis) (maxC : ℕ) :
    ∀ draws seen,
      (sampleCombos axes maxC draws seen).Pairwise (fun a b => a ≠ b) ∧
      ∀ c ∈ sampleCombos axes maxC draws seen, c ∉ seen := by
  intro draws
  induction draws with
  | nil =>
    intro seen
    simp [sampleCombos]
  | cons d ds ih =>
    intro seen
    unfold sampleCombos
    by_cases hfull : maxC ≤ seen.length
    · rw [if_pos hfull]
      simp
    · rw [if_neg hfull]
      dsimp only
      by_cases hseen : mkCombo axes d ∈ seen
      · rw [if_pos hseen]
        exact ih seen
      · rw [if_neg hseen]
        obtain ⟨ihp, ihf⟩ := ih (mkCombo axes d :: seen)
        refine ⟨List.pairwise_cons.2 ⟨?_, ihp⟩, ?_⟩
        · intro b hb
          have := ihf b hb
          intro hcontra
          exact this (hcontra ▸ List.mem_cons_self _ _)
        · intro c hc
          rcases List.mem_cons.1 hc with rfl | htail
          · exact hseen
          · intro hc2
            exact ihf c htail (List.mem_cons_of_mem _ hc2)

theorem optLoop_testedCount_le (runOne : Params → BacktestResult) (clock : ℕ → ℤ)
    (config : OptimizationConfig) :
    ∀ combos st, (optLoop runOne clock config combos st).testedCount
      ≤ st.testedCount + combos.length := by
  intro combos
  induction combos with
  | nil =>
    intro st
    simp [optLoop]
  | cons c rest ih =>
    intro st
    unfold optLoop
    cases hdl : config.deadlineMs with
    | some d =>
      dsimp only [hdl]
      by_cases h50 : st.testedCount % 50 = 0
      · simp only [if_pos h50]
        by_cases hlate : d < clock st.clockReads
        · rw [if_pos hlate]
          simp
        · rw [if_neg hlate]
          dsimp only
          by_cases hskip : skipCombo config.strategyType (mergeParams config.fixedParams c) = true
          · rw [if_pos hskip]
            have := ih { st with clockReads := st.clockReads + 1 }
            simp only [List.length_cons] at this ⊢
            omega
          · rw [if_neg hskip]
            have := ih { st with
              backResults := if 0 < ({ runOne (mergeParams config.fixedParams c) with
                  params := mergeParams config.fixedParams c }).totalTrades
                then st.backResults ++ [{ runOne (mergeParams config.fixedParams c) with
                  params := mergeParams config.fixedParams c }]
                else st.backResults
              testedCount := st.testedCount + 1
              clockReads := st.clockReads + 1 }
            simp only [List.length_cons] at this ⊢
            omega
      · simp only [if_neg h50]
        by_cases hskip : skipCombo config.strategyType (mergeParams config.fixedParams c) = true
        · rw [if_pos hskip]
          have := ih st
          simp only [List.length_cons] at this ⊢
          omega
        · rw [if_neg hskip]
          have := ih { st with
            backResults := if 0 < ({ runOne (mergeParams config.fixedParams c) with
                params := mergeParams config.fixedParams c }).totalTrades
              then st.backResults ++ [{ runOne (mergeParams config.fixedParams c) with
                params := mergeParams config.fixedParams c }]
              else st.backResults
            testedCount := st.testedCount + 1 }
          simp only [List.length_cons] at this ⊢
          omega
    | none =>
      dsimp only [hdl]
      by_cases hskip : skipCombo config.strategyType (mergeParams config.fixedParams c) = true
      · rw [if_pos hskip]
        have := ih st
        simp only [List.length_cons] at this ⊢
        omega
      · rw [if_neg hskip]
        have := ih { st with
          backResults := if 0 < ({ runOne (mergeParams config.fixedParams c) with
              params := mergeParams config.fixedParams c }).totalTrades
            then st.backResults ++ [{ runOne (mergeParams config.fixedParams c) with
              params := mergeParams config.fixedParams c }]
            else st.backResults
          testedCount := st.testedCount + 1 }
        simp only [List.length_cons] at this ⊢
        omega

/-- C7: whenever at least one axis is enabled and the full Cartesian-product
size exceeds `maxCombinations`, the combination source switches to
rejection-sampled random draws, at most `maxCombinations` combinations are
tested (`testedCount ≤ maxCombinations` for every draw stream and clock), and
the yielded combinations are pairwise distinct (the seen-set admits no
serialized key twice). -/
theorem optimize_sampling_cap_distinct :
    ∀ runOne clock draws config,
      (∃ r ∈ config.paramRanges, r.enabled = true) →
      config.maxCombinations < totalCombos (mkAxes config.paramRanges) →
      iterateCombinations (mkAxes config.paramRanges) config.maxCombinations draws
          = sampleCombos (mkAxes config.paramRanges) config.maxCombinations draws [] ∧
      (optimize runOne clock draws config).testedCount ≤ config.maxCombinations ∧
      (iterateCombinations (mkAxes config.paramRanges) config.maxCombinations draws).Pairwise
        (fun a b => a ≠ b) := by
  intro runOne clock draws config hen hlt
  have hiter : iterateCombinations (mkAxes config.paramRanges) config.maxCombinations draws
      = sampleCombos (mkAxes config.paramRanges) config.maxCombinations draws [] := by
    unfold iterateCombinations
    rw [if_neg (by omega)]
  refine ⟨hiter, ?_, ?_⟩
  · obtain ⟨r, hmem, henr⟩ := hen
    unfold optimize
    rw [if_neg (List.ne_nil_of_mem (List.mem_filter.2 ⟨hmem, henr⟩))]
    dsimp only
    have h1 := optLoop_testedCount_le runOne clock config
      (iterateCombinations (mkAxes config.paramRanges) config.maxCombinations draws)
      ⟨[], 0, false, 0⟩
    have h2 := sampleCombos_length_le (mkAxes config.paramRanges)
      config.maxCombinations draws []
    rw [hiter] at h1
    dsimp only at h1
    simp only [List.length_nil, Nat.sub_zero] at h2
    rw [hiter]
    omega
  · rw [hiter]
    exact (sampleCombos_fresh (mkAxes config.paramRanges) config.maxCombinations draws []).1

def c7RangeA : ParamRange := ⟨"lenA", "A", PType.int, 1, 2, 1, true⟩

def c7RangeB : ParamRange := ⟨"lenB", "B", PType.int, 1, 2, 1, true⟩

def c7Cfg : OptimizationConfig :=
  ⟨"rsi", none, [c7RangeA, c7RangeB], [], 3, SortKey.totalReturnPct, 50, none⟩

def c7Draws : List (List ℕ) := [[0, 0], [0, 0], [1, 1], [0, 1], [1, 0]]

/-- C7 witness: a 2×2 grid (4 combinations) with a cap of 3 switches to
sampling, tests at most 3 combinations, and yields pairwise-distinct
combinations. -/
theorem optimize_sampling_cap_distinct_witness :
    iterateCombinations (mkAxes c7Cfg.paramRanges) c7Cfg.maxCombinations c7Draws
        = sampleCombos (mkAxes c7Cfg.paramRanges) c7Cfg.maxCombinations c7Draws [] ∧
    (optimize (fun _ => zeroResult) (fun _ => 0) c7Draws c7Cfg).testedCount
        ≤ c7Cfg.maxCombinations ∧
    (iterateCombinations (mkAxes c7Cfg.paramRanges) c7Cfg.maxCombinations c7Draws).Pairwise
      (fun a b => a ≠ b) :=
  optimize_sampling_cap_distinct (fun _ => zeroResult) (fun _ => 0) c7Draws c7Cfg
    ⟨c7RangeA, by simp [c7Cfg], rfl⟩
    (by
      have hr : List.range 2 = [0, 1] := rfl
      norm_num [c7Cfg, c7RangeA, c7RangeB, mkAxes, axisValues, totalCombos, fix8, hr,
        Function.comp_def]
      )

-- ─── C8: monthly P&L partitions the trade list ───────────────────────────────

theorem bumpMonth_key (m : MonthlyPnL) (t : Trade) : (bumpMonth m t).key = m.key := rfl

theorem newMonthBucket_key (t : Trade) : (newMonthBucket t).key = tradeMonthKey t := rfl

theorem newMonthBucket_trades (t : Trade) : (newMonthBucket t).trades = 1 := rfl

theorem monthlyUpsert_sum (t : Trade) :
    ∀ acc : List MonthlyPnL,
      ((monthlyUpsert t acc).map (·.trades)).sum = ((acc.map (·.trades)).sum) + 1 := by
  intro acc
  induction acc with
  | nil => rfl
  | cons m rest ih =>
    unfold monthlyUpsert
    by_cases h : m.key = tradeMonthKey t
    · rw [if_pos h]
      simp only [List.map_cons, List.sum_cons, bumpMonth]
      omega
    · rw [if_neg h]
      simp only [List.map_cons, List.sum_cons, ih]
      omega

theorem monthlyUpsert_key_mem (t : Trade) :
    ∀ acc : List MonthlyPnL, ∀ k, k ∈ (monthlyUpsert t acc).map (·.key) →
      k ∈ acc.map (·.key) ∨ k = tradeMonthKey t := by
  intro acc
  induction acc with
  | nil =>
    intro k hk
    right
    simpa [monthlyUpsert, newMonthBucket_key] using hk
  | cons m rest ih =>
    intro k hk
    unfold monthlyUpsert at hk
    by_cases h : m.key = tradeMonthKey t
    · rw [if_pos h] at hk
      simp only [List.map_cons, List.mem_cons, bumpMonth_key] at hk
      rcases hk with rfl | htail
      · left
        simp
      · left
        simp [htail]
    · rw [if_neg h] at hk
      simp only [List.map_cons, List.mem_cons] at hk
      rcases hk with rfl | htail
      · left
        simp
      · rcases ih k htail with hin | rfl
        · left
          simp [hin]
        · right
          rfl

theorem monthlyUpsert_pairwise (t : Trade) :
    ∀ acc : List MonthlyPnL, acc.Pairwise (fun a b => a.key ≠ b.key) →
      (monthlyUpsert t acc).Pairwise (fun a b => a.key ≠ b.key) := by
  intro acc
  induction acc with
  | nil =>
    intro _
    simp [monthlyUpsert]
  | cons m rest ih =>
    intro hp
    rw [List.pairwise_cons] at hp
    unfold monthlyUpsert
    by_cases h : m.key = tradeMonthKey t
    · rw [if_pos h]
      refine List.pairwise_cons.2 ⟨?_, hp.2⟩
      intro b hb
      rw [bumpMonth_key]
      exact hp.1 b hb
    · rw [if_neg h]
      refine List.pairwise_cons.2 ⟨?_, ih hp.2⟩
      intro b hb
      have hbkey : b.key ∈ (monthlyUpsert t rest).map (·.key) := List.mem_map_of_mem _ hb
      rcases monthlyUpsert_key_mem t rest b.key hbkey with hin | heq
      · obtain ⟨b0, hb0, hb0k⟩ := List.mem_map.1 hin
        rw [← hb0k]
        exact hp.1 b0 hb0
      · rw [heq]
        exact h

theorem monthlyUpsert_mem (t : Trade) :
    ∀ acc : List MonthlyPnL, acc.Pairwise (fun a b => a.key ≠ b.key) →
      ∀ m ∈ monthlyUpsert t acc,
        (m ∈ acc ∧ m.key ≠ tradeMonthKey t) ∨
        (∃ m0, m0 ∈ acc ∧ m0.key = tradeMonthKey t ∧ m = bumpMonth m0 t) ∨
        (m = newMonthBucket t ∧ ¬ ∃ m0 ∈ acc, m0.key = tradeMonthKey t) := by
  intro acc
  induction acc with
  | nil =>
    intro _ m hm
    right; right
    refine ⟨by simpa [monthlyUpsert] using hm, ?_⟩
    rintro ⟨m0, hm0, _⟩
    cases hm0
  | cons a rest ih =>
    intro hp m hm
    rw [List.pairwise_cons] at hp
    unfold monthlyUpsert at hm
    by_cases h : a.key = tradeMonthKey t
    · rw [if_pos h] at hm
      rcases List.mem_cons.1 hm with rfl | htail
      · right; left
        exact ⟨a, List.mem_cons_self _ _, h, rfl⟩
      · left
        refine ⟨List.mem_cons_of_mem _ htail, ?_⟩
        have := hp.1 m htail
        rw [h] at this
        exact fun hc => this hc.symm
    · rw [if_neg h] at hm
      rcases List.mem_cons.1 hm with rfl | htail
      · left
        exact ⟨List.mem_cons_self _ _, h⟩
      · rcases ih hp.2 m htail with ⟨hmem, hne⟩ | ⟨m0, hm0, hk0, heq⟩ | ⟨heq, hnone⟩
        · exact Or.inl ⟨List.mem_cons_of_mem _ hmem, hne⟩
        · exact Or.inr (Or.inl ⟨m0, List.mem_cons_of_mem _ hm0, hk0, heq⟩)
        · refine Or.inr (Or.inr ⟨heq, ?_⟩)
          rintro ⟨m0, hm0, hk0⟩
          rcases List.mem_cons.1 hm0 with rfl | htail0
          · exact h hk0
          · exact hnone ⟨m0, htail0, hk0⟩

theorem monthlyUpsert_keys_sup (t : Trade) :
    ∀ acc : List MonthlyPnL, ∀ m0 ∈ acc,
      ∃ m1 ∈ monthlyUpsert t acc, m1.key = m0.key := by
  intro acc
  induction acc with
  | nil =>
    intro m0 hm0
    cases hm0
  | cons a rest ih =>
    intro m0 hm0
    unfold monthlyUpsert
    by_cases h : a.key = tradeMonthKey t
    · rw [if_pos h]
      rcases List.mem_cons.1 hm0 with rfl | htail
      · exact ⟨bumpMonth m0 t, List.mem_cons_self _ _, bumpMonth_key m0 t⟩
      · exact ⟨m0, List.mem_cons_of_mem _ (by exact htail), rfl⟩
    · rw [if_neg h]
      rcases List.mem_cons.1 hm0 with rfl | htail
      · exact ⟨m0, List.mem_cons_self _ _, rfl⟩
      · obtain ⟨m1, hm1, hk1⟩ := ih m0 htail
        exact ⟨m1, List.mem_cons_of_mem _ hm1, hk1⟩

theorem monthlyUpsert_exists_key (t : Trade) :
    ∀ acc : List MonthlyPnL, ∃ m1 ∈ monthlyUpsert t acc, m1.key = tradeMonthKey t := by
  intro acc
  induction acc with
  | nil =>
    exact ⟨newMonthBucket t, List.mem_cons_self _ _, newMonthBucket_key t⟩
  | cons a rest ih =>
    unfold monthlyUpsert
    by_cases h : a.key = tradeMonthKey t
    · rw [if_pos h]
      exact ⟨bumpMonth a t, List.mem_cons_self _ _, by rw [bumpMonth_key]; exact h⟩
    · rw [if_neg h]
      obtain ⟨m1, hm1, hk1⟩ := ih
      exact ⟨m1, List.mem_cons_of_mem _ hm1, hk1⟩

/-- The bundle invariant of `bucketsOf`: trade counts partition the processed
list, keys are pairwise distinct, and every processed trade's month key is
present. -/
theorem bucketsOf_inv (ts : List Trade) :
    ((bucketsOf ts).map (·.trades)).sum = ts.length ∧
    (bucketsOf ts).Pairwise (fun a b => a.key ≠ b.key) ∧
    (∀ m ∈ bucketsOf ts, m.trades = ts.countP (fun u => tradeMonthKey u = m.key)) ∧
    (∀ u ∈ ts, ∃ m0 ∈ bucketsOf ts, m0.key = tradeMonthKey u) := by
  induction ts using List.reverseRecOn with
  | nil =>
    refine ⟨rfl, by simp [bucketsOf], ?_, ?_⟩
    · intro m hm
      simp [bucketsOf] at hm
    · intro u hu
      cases hu
  | append_singleton ts t ih =>
    obtain ⟨ihsum, ihpw, ihcnt, ihcomp⟩ := ih
    have hstep : bucketsOf (ts ++ [t]) = monthlyUpsert t (bucketsOf ts) := by
      unfold bucketsOf
      rw [List.foldl_append]
      rfl
    refine ⟨?_, ?_, ?_, ?_⟩
    · rw [hstep, monthlyUpsert_sum]
      simp [ihsum]
    · rw [hstep]
      exact monthlyUpsert_pairwise t _ ihpw
    · rw [hstep]
      intro m hm
      rcases monthlyUpsert_mem t _ ihpw m hm with ⟨hmem, hne⟩ | ⟨m0, hm0, hk0, rfl⟩ |
        ⟨rfl, hnone⟩
      · rw [List.countP_append, ihcnt m hmem]
        have : (List.countP (fun u => decide (tradeMonthKey u = m.key)) [t]) = 0 := by
          simp [List.countP_cons]
          exact fun hc => hne hc.symm
        omega
      · have htr : (bumpMonth m0 t).trades = m0.trades + 1 := rfl
        rw [htr, bumpMonth_key, List.countP_append, ihcnt m0 hm0]
        have : (List.countP (fun u => decide (tradeMonthKey u = m0.key)) [t]) = 1 := by
          simp [List.countP_cons, hk0.symm]
        omega
      · rw [newMonthBucket_trades, newMonthBucket_key, List.countP_append]
        have hz : (ts.countP (fun u => decide (tradeMonthKey u = tradeMonthKey t))) = 0 := by
          rw [List.countP_eq_zero]
          intro u hu
          simp only [decide_eq_true_eq]
          intro hc
          obtain ⟨m0, hm0, hk0⟩ := ihcomp u hu
          exact hnone ⟨m0, hm0, by rw [hk0, hc]⟩
        have ho : (List.countP (fun u => decide (tradeMonthKey u = tradeMonthKey t)) [t]) = 1 := by
          simp [List.countP_cons]
        omega
    · rw [hstep]
      intro u hu
      rcases List.mem_append.1 hu with hints | hone
      · obtain ⟨m0, hm0, hk0⟩ := ihcomp u hints
        obtain ⟨m1, hm1, hk1⟩ := monthlyUpsert_keys_sup t _ m0 hm0
        exact ⟨m1, hm1, by rw [hk1, hk0]⟩
      · obtain ⟨m1, hm1, hk1⟩ := monthlyUpsert_exists_key t (bucketsOf ts)
        rw [List.mem_singleton.1 hone]
        exact ⟨m1, hm1, hk1⟩

/-- C8: the monthly P&L buckets partition the trade list exactly — bucket
keys are pairwise distinct, each bucket's `trades` field counts exactly the
trades whose exit timestamp falls in that bucket's month, and the `trades`
fields sum to the length of the trade list. -/
theorem calcMonthlyPnL_partition :
    (∀ ts : List Trade, ((calcMonthlyPnL ts).map (·.trades)).sum = ts.length) ∧
    (∀ ts : List Trade, ∀ m ∈ calcMonthlyPnL ts,
      m.trades = ts.countP (fun u => tradeMonthKey u = m.key)) ∧
    (∀ ts : List Trade, (calcMonthlyPnL ts).Pairwise (fun a b => a.key ≠ b.key)) := by
  have hperm : ∀ ts : List Trade, (calcMonthlyPnL ts).Perm (bucketsOf ts) :=
    fun ts => List.mergeSort_perm _ _
  refine ⟨?_, ?_, ?_⟩
  · intro ts
    have := ((hperm ts).map (·.trades)).sum_eq
    rw [this]
    exact (bucketsOf_inv ts).1
  · intro ts m hm
    exact (bucketsOf_inv ts).2.2.1 m ((hperm ts).mem_iff.1 hm)
  · intro ts
    refine (List.Perm.pairwise_iff ?_ (hperm ts)).2 (bucketsOf_inv ts).2.1
    intro a b hab
    exact fun hc => hab hc.symm

def c8Trade : Trade := ⟨0, 1, 0, 0, 1, 1, Dir.long, some 0, 0, 0⟩

/-- C8 witness: a single trade exiting at epoch 0 lands in the `1970-01`
bucket, whose count is 1. -/
theorem calcMonthlyPnL_partition_witness :
    ((calcMonthlyPnL [c8Trade]).map (·.trades)).sum = 1 ∧
    (newMonthBucket c8Trade).trades
      = [c8Trade].countP (fun u => tradeMonthKey u = (newMonthBucket c8Trade).key) :=
  ⟨calcMonthlyPnL_partition.1 [c8Trade],
    calcMonthlyPnL_partition.2.1 [c8Trade] (newMonthBucket c8Trade)
      ((List.mergeSort_perm (bucketsOf [c8Trade]) _).mem_iff.2
        (List.mem_singleton.2 rfl))⟩

end BTN
